import Mathlib

/-!
# Verification of the cryptolab cryptanalysis core

Shallow embedding of the statistical scorers and generic optimizers of the
cryptolab repository, together with proofs checking the natural-language
specification against the code.

Modelling conventions, used uniformly below:

* Python `str` values are embedded as `List Char`; `text.upper()` becomes
  `List.map Char.toUpper`.
* Python `float` scores are embedded as `ℚ` (exact arithmetic stands in for
  IEEE doubles; every claim below is about the branching and data-flow structure
  or about exact identities, not about rounding).
* The float value `-inf`, used by the word scorer as "unreachable DP cell", is
  embedded as `none : Option ℚ`, with `optLt` giving the float comparison.
* A Python function that may raise is embedded with an `Option` result
  (`none` = an exception was raised).
* `random.random()`, a random `mutate` callback and a random `key_gen`
  callback are embedded as explicit streams indexed by the step at which the
  call happens (`rand : ℕ → ℚ`, `mutate : ℕ → K → K`, `gen : ℕ → K`);
  quantifying over the stream quantifies over all possible draws.
* `math.exp` is embedded as an uninterpreted parameter `expF : ℚ → ℚ`: the
  claims under check depend on which argument the code passes to `exp` and on
  how the result is used, never on the numeric value of the exponential.
* An unbounded Python `while` loop is embedded with an explicit fuel
  argument; the loop diverges on an input iff the embedding returns `none`
  for every fuel value.
-/

namespace Cryptolab

/-- The Python slice `t[s : s + len]` (clamping at the end, as in Python). -/
def sub (t : List Char) (s len : ℕ) : List Char :=
  (t.drop s).take len

/-- `text.upper()`. -/
def upper (t : List Char) : List Char :=
  t.map Char.toUpper

/-! ## N-gram scorer — `src/cryptolab/scoring/ngram.py`

`_NgramScorer` stores an n-gram table `_data : dict[str, float]`, a `_floor`
value and the n-gram length `_ngram_len`.  We embed the table as an
association list `List (List Char × ℚ)` holding the already log-transformed
values (the `float` entries of `_data`), the floor as a plain `ℚ`, and the
length as a `ℕ`. -/

/-- `self._data.get(key, floor)`. -/
def dictGet (data : List (List Char × ℚ)) (key : List Char) (floor : ℚ) : ℚ :=
  (data.lookup key).getD floor

/-- `_NgramScorer.score` (ngram.py lines 62-84): slide a window of width
`ngramLen` over the text and sum the table value of each uppercased window,
using `floor` for absent windows.  Python's `range(len(text) - L + 1)` is
empty when `len(text) < L`, which matches `ℕ` truncation in
`text.length + 1 - L`. -/
def ngram_score (data : List (List Char × ℚ)) (floor : ℚ) (ngramLen : ℕ)
    (text : List Char) : ℚ :=
  ((List.range (text.length + 1 - ngramLen)).map
    (fun i => dictGet data (upper (sub text i ngramLen)) floor)).sum

/-! `_NgramScorer._load_data` (ngram.py lines 30-60), first stage: read
`token count` lines accumulating the total `n += int(v)` while storing
`self._data[k] = float(v)` (a plain dict assignment: a repeated token
*overwrites* the stored count but still adds to `n`).  The second stage maps
every stored count `v` to `log10 (v / n)` and sets
`floor = log10 (0.01 / n)`; those transcendental values are written out
explicitly (as `Real.logb 10 _`) in the theorem about them (claim C9). -/

/-- One `self._data[k] = v` dict assignment: overwrite in place if the key is
present (Python dicts keep the original insertion position), else append. -/
def dictInsert (data : List (List Char × ℕ)) (key : List Char) (v : ℕ) :
    List (List Char × ℕ) :=
  if (data.lookup key).isSome then
    data.map (fun p => if p.1 = key then (key, v) else p)
  else
    data ++ [(key, v)]

/-- First stage of `_NgramScorer._load_data`: the dict of raw counts and the
accumulated total, from the `(token, count)` lines of the resource. -/
def load_counts (raw : List (List Char × ℕ)) : List (List Char × ℕ) × ℕ :=
  (raw.foldl (fun d p => dictInsert d p.1 p.2) [], (raw.map Prod.snd).sum)

/-! ## Word segmentation scorer — `src/cryptolab/scoring/words.py` -/

/-- A word is a string. -/
abbrev Word := List Char

/-- The default `prev` context `"<UNK>"` of `_WordScorer._cPw`. -/
def UNK : Word := ['<', 'U', 'N', 'K', '>']

/-- The data fields of `_WordScorer` after `_load_data`: first-order
log-probabilities `_Pw`, second-order conditional log-probabilities `_Pw2`
(the key `f"{prev} {word}"` is embedded as the pair `(prev, word)`; words
contain no spaces, so the two key spaces are in bijection), and the `_unseen`
penalty vector. -/
structure WordData where
  Pw : List (Word × ℚ)
  Pw2 : List ((Word × Word) × ℚ)
  unseen : List ℚ

/-- `_WordScorer._cPw` (words.py lines 83-103).  The source indexes
`self._unseen[min(len(word), len(self._unseen) - 1)]`; `List.getD _ _ 0`
agrees with it whenever `unseen` is non-empty (the loaded vector has 50
entries). -/
def cPw (d : WordData) (word : Word) (prev : Word) : ℚ :=
  match d.Pw.lookup word with
  | none => d.unseen.getD (min word.length (d.unseen.length - 1)) 0
  | some pw =>
    match d.Pw2.lookup (prev, word) with
    | some r => r
    | none => pw

/-- `float` comparison `a < b` where `none` plays the role of `-inf`. -/
def optLt : Option ℚ → Option ℚ → Bool
  | none, none => false
  | none, some _ => true
  | some _, none => false
  | some a, some b => decide (a < b)

/-- A DP cell `(prob[i][j], segs[i][j])`. -/
abbrev Cell := Option ℚ × List Word

/-- Row 0 of the DP table (words.py lines 128-132): for each `j < L` the
cell holds `(cPw(text[: j + 1]), [text[: j + 1]])` — the source initializes
the whole row to `(-inf, [])` and then overwrites every entry `j < L`. -/
def row0 (cpw : Word → Word → ℚ) (t : List Char) (L : ℕ) : List Cell :=
  (List.range L).map (fun j => (some (cpw (sub t 0 (j + 1)) UNK), [sub t 0 (j + 1)]))

/-- Read `(prob[i][j], segs[i][j])`; out-of-table reads (which the source
never performs) default to the initial `(-inf, [])`. -/
def getCell (table : List (List Cell)) (i j : ℕ) : Cell :=
  (table.getD i []).getD j (none, [])

/-- One iteration of the inner `for k in range(min(i, L))` loop of
`_WordScorer._score_impl` (words.py lines 144-156): skip a `-inf` previous
boundary, otherwise score `word` after the last word of the stored previous
segmentation and keep the strictly better candidate.  The source reads
`segs[i - k - 1][k][-1]`, which presumes that list non-empty; it is whenever
`prob[i - k - 1][k]` is finite, and `List.getLastD _ []` agrees with it
there. -/
def bpStep (cpw : Word → Word → ℚ) (t : List Char) (table : List (List Cell))
    (i j : ℕ) (best : Cell) (k : ℕ) : Cell :=
  match (getCell table (i - k - 1) k).1 with
  | none => best
  | some pv =>
    let word := sub t i (j + 1)
    let val := pv + cpw word ((getCell table (i - k - 1) k).2.getLastD [])
    if optLt best.1 (some val) then (some val, (getCell table (i - k - 1) k).2 ++ [word])
    else best

/-- The inner loop itself, folded over the boundary lengths `ks`. -/
def bpGo (cpw : Word → Word → ℚ) (t : List Char) (table : List (List Cell))
    (i j : ℕ) : Cell → List ℕ → Cell
  | best, [] => best
  | best, k :: ks => bpGo cpw t table i j (bpStep cpw t table i j best k) ks

/-- The value of cell `(i, j)`, `i ≥ 1`: the best extension over all previous
boundaries `k ∈ range (min i L)`, starting from `(-inf, [])`. -/
def bestPrev (cpw : Word → Word → ℚ) (t : List Char) (L : ℕ)
    (table : List (List Cell)) (i j : ℕ) : Cell :=
  bpGo cpw t table i j ((none, []) : Cell) (List.range (min i L))

/-- Row `i ≥ 1` of the DP table (words.py lines 137-159): entries
`j < min (L, n - i)` are computed by the inner loop, the rest keep the
initial `(-inf, [])`. -/
def rowI (cpw : Word → Word → ℚ) (t : List Char) (L : ℕ)
    (table : List (List Cell)) (i : ℕ) : List Cell :=
  (List.range L).map
    (fun j => if j < min L (t.length - i) then bestPrev cpw t L table i j else ((none, []) : Cell))

/-- The DP table holding rows `0 .. m`: row `i` is computed from the table of
rows `0 .. i - 1` exactly as the source's `for i in range(1, n)` loop fills
`prob` and `segs` (row `i` only ever reads rows `< i`). -/
def tableUpTo (cpw : Word → Word → ℚ) (t : List Char) (L : ℕ) : ℕ → List (List Cell)
  | 0 => [row0 cpw t L]
  | m + 1 => tableUpTo cpw t L m ++ [rowI cpw t L (tableUpTo cpw t L m) (m + 1)]

/-- Python's `max(ends, key=lambda x: x[0])`: first maximal element by key;
raises `ValueError` (= `none`) on an empty list. -/
def maxByFst : List Cell → Option Cell
  | [] => none
  | e :: rest => some (rest.foldl (fun cur x => if optLt cur.1 x.1 then x else cur) e)

/-- `_WordScorer._score_impl` (words.py lines 105-163), with the source's
`self._MAX_WORD_LEN` generalized to the parameter `maxWordLen` (the source
fixes it to `20`).  Returns `none` when the final `max(ends, ...)` raises
`ValueError` on an empty `ends` list. -/
def score_impl (cpw : Word → Word → ℚ) (maxWordLen : ℕ) (t : List Char) :
    Option (Option ℚ × List Word) :=
  let n := t.length
  let L := min maxWordLen n
  let table := tableUpTo cpw t L (n - 1)
  maxByFst ((List.range (min n L)).map (fun i => getCell table (n - i - 1) i))

/-- `_WordScorer.analyze` (with the data already loaded): `_score_impl` with
the source's `_MAX_WORD_LEN = 20` and the loaded lexicon's `_cPw`. -/
def analyze (d : WordData) (t : List Char) : Option (Option ℚ × List Word) :=
  score_impl (cPw d) 20 t

/-- `word_score(text)` = `_scorer.score(text.upper())` (words.py line 249);
the outer `none` models a propagated exception. -/
def word_score (d : WordData) (t : List Char) : Option (Option ℚ) :=
  (analyze d (upper t)).map Prod.fst

/-- `word_segments(text)` = `_scorer.segment(text.upper())` (words.py
line 266). -/
def word_segments (d : WordData) (t : List Char) : Option (List Word) :=
  (analyze d (upper t)).map Prod.snd

/-- `float` comparison `a ≤ b` (with `none` as `-inf`): the negation of
`optLt b a`. -/
def oLe (a b : Option ℚ) : Prop := optLt b a = false

instance (a b : Option ℚ) : Decidable (oLe a b) := by
  unfold oLe; infer_instance

/-- The candidate that boundary length `k` contributes to cell `(i, j)` in
the inner loop of `_score_impl`: `none` when the boundary's cell is `-inf`
(the loop `continue`s), otherwise the extended `(value, segmentation)`
pair. -/
def candOf (cpw : Word → Word → ℚ) (t : List Char) (table : List (List Cell))
    (i j k : ℕ) : Option Cell :=
  match (getCell table (i - k - 1) k).1 with
  | none => none
  | some pv =>
    some (some (pv + cpw (sub t i (j + 1)) ((getCell table (i - k - 1) k).2.getLastD [])),
      (getCell table (i - k - 1) k).2 ++ [sub t i (j + 1)])

/-! ### Specification-side notions for the word scorer -/

/-- Cumulative conditional log-probability of the words `ws` given that the
word before the first of them was `prev`. -/
def chainScore (cpw : Word → Word → ℚ) : Word → List Word → ℚ
  | _, [] => 0
  | prev, w :: ws => cpw w prev + chainScore cpw w ws

/-- Cumulative log-probability of a segmentation: the first word is scored
against the default `"<UNK>"` context, every later word against its
predecessor — exactly how `_score_impl` accumulates `_cPw` values. -/
def pathScore (cpw : Word → Word → ℚ) (ws : List Word) : ℚ :=
  chainScore cpw UNK ws

/-- All words are non-empty and of length at most `cap`. -/
def okWords (cap : ℕ) (ws : List Word) : Prop :=
  ∀ w ∈ ws, w ≠ [] ∧ w.length ≤ cap

instance (cap : ℕ) (ws : List Word) : Decidable (okWords cap ws) := by
  unfold okWords; infer_instance

/-- `ws` is a segmentation of the whole of `t` into non-empty words of length
at most `cap` — the search space the specification's optimality claim ranges
over. -/
def IsSegOf (cap : ℕ) (t : List Char) (ws : List Word) : Prop :=
  okWords cap ws ∧ ws ≠ [] ∧ ws.flatten = t

/-- `ws` is a segmentation of the prefix `t.take (i + j + 1)` whose last word
is `t[i : i + j + 1]` — the exact meaning of DP cell `(i, j)`. -/
def SegEnd (L : ℕ) (t : List Char) (i j : ℕ) (ws : List Word) : Prop :=
  okWords L ws ∧ ws ≠ [] ∧ ws.flatten = t.take (i + j + 1) ∧
    ws.getLast? = some (sub t i (j + 1)) ∧ i + j + 1 ≤ t.length

/-! ## Shared initial-key acquisition

Both optimizers begin with the identical loop (anneal.py lines 65-73,
hill_climb.py lines 77-85):

    key = key_gen()
    text = ""
    while text == "":
        try:
            text = decrypt(ciphertext, key)
        except Exception:
            key = key_gen()

Note that `key_gen()` is called again only inside the `except` branch: a key
whose decryption *succeeds* with empty text is retried unchanged forever.
`dec` is `decrypt` with the ciphertext already applied; `gen n` is the value
of the `n`-th call of `key_gen()`; `fuel` bounds the number of loop
iterations (the source loop is unbounded). -/

/-- The acquisition loop body: current key `k`, next generator index `g`. -/
def acquireGo {K : Type _} (dec : K → Option (List Char)) (gen : ℕ → K) :
    K → ℕ → ℕ → Option (List Char × K)
  | _, _, 0 => none
  | k, g, fuel + 1 =>
    match dec k with
    | none => acquireGo dec gen (gen g) (g + 1) fuel
    | some t => if t = [] then acquireGo dec gen k g fuel else some (t, k)

/-- The whole acquisition phase, starting from `key = key_gen()`. -/
def acquireKey {K : Type _} (dec : K → Option (List Char)) (gen : ℕ → K)
    (fuel : ℕ) : Option (List Char × K) :=
  acquireGo dec gen (gen 0) 1 fuel

/-! ## Simulated annealing — `src/cryptolab/utils/anneal.py`

A candidate is the source's `(score, text, key)` tuple, embedded as
`ℚ × List Char × K` (so `c.1` is the score, `c.2.1` the text and `c.2.2` the
key, matching `c[0]`, `c[1]`, `c[-1]`). -/

/-- The `for i in range(max_steps)` loop of `anneal` (anneal.py lines
77-97), as a function of the current candidate, the best candidate, the step
index `i` and the remaining number of steps.  Faithful points: a failed
decryption `continue`s — skipping both the acceptance logic *and* the final
`if temp_i < limit: break` check; `best` is updated only inside the
acceptance branch; the loop returns `best`. -/
def annealGo {K : Type _} (dec : K → Option (List Char)) (score : List Char → ℚ)
    (expF : ℚ → ℚ) (mutate : ℕ → K → K) (rand : ℕ → ℚ)
    (temp rate limit : ℚ) :
    (ℚ × List Char × K) → (ℚ × List Char × K) → ℕ → ℕ → ℚ × List Char × K
  | _, best, _, 0 => best
  | cur, best, i, steps + 1 =>
    match dec (mutate i cur.2.2) with
    | none => annealGo dec score expF mutate rand temp rate limit cur best (i + 1) steps
    | some t =>
      let sc := score t
      let temp_i := temp * rate ^ i
      let bound := expF (min ((sc - cur.1) / temp_i) 700)
      let cur' := if sc > cur.1 ∨ rand i < bound then (sc, t, mutate i cur.2.2) else cur
      let best' :=
        if sc > cur.1 ∨ rand i < bound then
          (if sc > best.1 then (sc, t, mutate i cur.2.2) else best)
        else best
      if temp_i < limit then best'
      else annealGo dec score expF mutate rand temp rate limit cur' best' (i + 1) steps

/-- `anneal` (anneal.py lines 11-97): acquire an initial valid key, set
`best = current = (score(text), text, key)`, run the annealing loop, return
`(best[1], best[2])`.  `none` models divergence of the acquisition loop. -/
def anneal {K : Type _} (ciphertext : List Char) (key_gen : ℕ → K)
    (mutate : ℕ → K → K) (decrypt : List Char → K → Option (List Char))
    (score : List Char → ℚ) (expF : ℚ → ℚ) (rand : ℕ → ℚ)
    (temp rate limit : ℚ) (max_steps fuel : ℕ) : Option (List Char × K) :=
  match acquireKey (decrypt ciphertext) key_gen fuel with
  | none => none
  | some (t, k) =>
    let best := annealGo (decrypt ciphertext) score expF mutate rand temp rate limit
      (score t, t, k) (score t, t, k) 0 max_steps
    some (best.2.1, best.2.2)

/-! Specification-side annealing definitions (claim C3).  `annealClaimGo` is
written from the claim's words, in particular its clause "the loop
terminates early once `temperature_i < stopThreshold`" — the check is
performed at every step.  `annealSpecGo` is the amended description: the
check is performed only at the end of steps whose decryption succeeded. -/

/-- Spec §4.3: `temperature_i = temp0 * coolingRate^i`. -/
def temperature (temp rate : ℚ) (i : ℕ) : ℚ := temp * rate ^ i

/-- Spec §4.3: acceptance bound `exp(min((newScore - current.score)/temperature_i, 700))`. -/
def acceptBound (expF : ℚ → ℚ) (newScore curScore temp_i : ℚ) : ℚ :=
  expF (min ((newScore - curScore) / temp_i) 700)

/-- Spec §4.3: accept iff `newScore > current.score` or the step's uniform
draw is below the acceptance bound. -/
def accepts (expF : ℚ → ℚ) (newScore curScore temp_i r : ℚ) : Prop :=
  newScore > curScore ∨ r < acceptBound expF newScore curScore temp_i

instance (expF : ℚ → ℚ) (a b c r : ℚ) : Decidable (accepts expF a b c r) := by
  unfold accepts; infer_instance

/-- Claim C3's reading of the annealing loop: identical per-step acceptance
and best-tracking, but the early-termination check `temperature_i <
stopThreshold` is performed at the end of *every* step. -/
def annealClaimGo {K : Type _} (dec : K → Option (List Char)) (score : List Char → ℚ)
    (expF : ℚ → ℚ) (mutate : ℕ → K → K) (rand : ℕ → ℚ)
    (temp rate limit : ℚ) :
    (ℚ × List Char × K) → (ℚ × List Char × K) → ℕ → ℕ → ℚ × List Char × K
  | _, best, _, 0 => best
  | cur, best, i, steps + 1 =>
    let cont : (ℚ × List Char × K) → (ℚ × List Char × K) → ℚ × List Char × K :=
      fun c b =>
        if temperature temp rate i < limit then b
        else annealClaimGo dec score expF mutate rand temp rate limit c b (i + 1) steps
    match dec (mutate i cur.2.2) with
    | none => cont cur best
    | some t =>
      let sc := score t
      if accepts expF sc cur.1 (temperature temp rate i) (rand i) then
        let nc : ℚ × List Char × K := (sc, t, mutate i cur.2.2)
        cont nc (if sc > best.1 then nc else best)
      else cont cur best

/-- The amended description of the annealing loop: as `annealClaimGo`, except
that a step whose decryption fails leaves the state unchanged and continues
*without* the early-termination check. -/
def annealSpecGo {K : Type _} (dec : K → Option (List Char)) (score : List Char → ℚ)
    (expF : ℚ → ℚ) (mutate : ℕ → K → K) (rand : ℕ → ℚ)
    (temp rate limit : ℚ) :
    (ℚ × List Char × K) → (ℚ × List Char × K) → ℕ → ℕ → ℚ × List Char × K
  | _, best, _, 0 => best
  | cur, best, i, steps + 1 =>
    match dec (mutate i cur.2.2) with
    | none => annealSpecGo dec score expF mutate rand temp rate limit cur best (i + 1) steps
    | some t =>
      let sc := score t
      let nxt : (ℚ × List Char × K) → (ℚ × List Char × K) → ℚ × List Char × K :=
        fun c b =>
          if temperature temp rate i < limit then b
          else annealSpecGo dec score expF mutate rand temp rate limit c b (i + 1) steps
      if accepts expF sc cur.1 (temperature temp rate i) (rand i) then
        let nc : ℚ × List Char × K := (sc, t, mutate i cur.2.2)
        nxt nc (if sc > best.1 then nc else best)
      else nxt cur best

/-! ## Hill climbing — `src/cryptolab/utils/hill_climb.py`

`mutate` is embedded as `K → List K`: the neighbor iterator produced by one
`mutate(key)` call.  `gens r` is the `key_gen` stream seen by restart `r`. -/

/-- The inner `for new_key in mutate(key)` sweep of `_single_restart`
(hill_climb.py lines 88-102): state is `(best_i, key)`; a failed decryption
is skipped; a neighbor scoring strictly above `best_i` replaces it (and
`key`), and ends the sweep when `try_all` is false. -/
def sweepGo {K : Type _} (dec : K → Option (List Char)) (score : List Char → ℚ)
    (try_all : Bool) :
    (ℚ × List Char × K) → K → List K → (ℚ × List Char × K) × K
  | best_i, key, [] => (best_i, key)
  | best_i, key, nk :: rest =>
    match dec nk with
    | none => sweepGo dec score try_all best_i key rest
    | some t =>
      let sc := score t
      if sc > best_i.1 then
        if try_all then sweepGo dec score try_all (sc, t, nk) nk rest
        else ((sc, t, nk), nk)
      else sweepGo dec score try_all best_i key rest

/-- The outer `for _ in range(iterations)` loop of `_single_restart`
(hill_climb.py lines 88-107): each iteration runs a sweep starting from
`best_i = best` over `mutate key`; it continues only when the sweep
strictly improved `best`.  The result carries the final `(best, key)` and
the number of unused iterations (`0` exactly when the iteration cap was
exhausted). -/
def climbGo {K : Type _} (dec : K → Option (List Char)) (score : List Char → ℚ)
    (try_all : Bool) (mutate : K → List K) :
    (ℚ × List Char × K) → K → ℕ → (ℚ × List Char × K) × K × ℕ
  | best, key, 0 => (best, key, 0)
  | best, key, fuel + 1 =>
    let s := sweepGo dec score try_all best key (mutate key)
    if s.1.1 > best.1 then climbGo dec score try_all mutate s.1 s.2 fuel
    else (best, key, fuel + 1)

/-- `_single_restart` (hill_climb.py lines 63-109): acquire a valid initial
key, run the climb, return its best candidate. -/
def single_restart {K : Type _} (dec : K → Option (List Char))
    (score : List Char → ℚ) (try_all : Bool) (mutate : K → List K)
    (gen : ℕ → K) (fuel iterations : ℕ) : Option (ℚ × List Char × K) :=
  match acquireKey dec gen fuel with
  | none => none
  | some (t, k) =>
    some (climbGo dec score try_all mutate (score t, t, k) k iterations).1

/-- The `for i in range(1, restarts)` loop of `hill_climb` (lines 111-115):
keep the strictly better of `top` and each further restart's result. -/
def hillClimbGo {K : Type _} (dec : K → Option (List Char))
    (score : List Char → ℚ) (try_all : Bool) (mutate : K → List K)
    (gens : ℕ → ℕ → K) (fuel iterations : ℕ) :
    (ℚ × List Char × K) → ℕ → ℕ → Option (ℚ × List Char × K)
  | top, _, 0 => some top
  | top, i, rem + 1 =>
    match single_restart dec score try_all mutate (gens i) fuel iterations with
    | none => none
    | some res =>
      hillClimbGo dec score try_all mutate gens fuel iterations
        (if res.1 > top.1 then res else top) (i + 1) rem

/-- `hill_climb` (hill_climb.py lines 11-117): restart 0 runs
unconditionally (`top = _single_restart(0)`), then `range(1, restarts)`
further restarts; returns `(top[1], top[2])`.  `none` models divergence of
any acquisition loop. -/
def hill_climb {K : Type _} (ciphertext : List Char) (gens : ℕ → ℕ → K)
    (mutate : K → List K) (decrypt : List Char → K → Option (List Char))
    (score : List Char → ℚ) (try_all : Bool) (restarts : ℕ)
    (iterations fuel : ℕ) : Option (List Char × K) :=
  match single_restart (decrypt ciphertext) score try_all mutate (gens 0) fuel iterations with
  | none => none
  | some top =>
    (hillClimbGo (decrypt ciphertext) score try_all mutate gens fuel iterations
        top 1 (restarts - 1)).map (fun b => (b.2.1, b.2.2))

/-! ### Concrete instances used in examples, counterexamples and witnesses -/

/-- A 3-entry lexicon (spec §8) in which the whole word wins:
`Pw("AB") = -2 > Pw("A") + Pw("B") = -7`. -/
def toyWhole : WordData := ⟨[(['A'], -4), (['A', 'B'], -2), (['B'], -3)], [], [-99]⟩

/-- A 3-entry lexicon (spec §8) in which the split wins:
`Pw("A") + Pw("B") = -2 > Pw("AB") = -3`. -/
def toySplit : WordData := ⟨[(['A'], -1), (['A', 'B'], -3), (['B'], -1)], [], [-99]⟩

/-- A conditional-probability function making the segmentations
`["A", "B", "C"]` and `["AB", "C"]` of `"ABC"` tie at `-3`: at DP cell
`(2, 0)` the boundary `k = 0` (previous word `"B"`, the smallest previous
word length) and the boundary `k = 1` (previous word `"AB"`) propose the
same value, so the tie-break is observable in the output. -/
def tieCpw : Word → Word → ℚ := fun w prev =>
  if w = ['A'] ∧ prev = UNK then -1
  else if w = ['A', 'B'] ∧ prev = UNK then -2
  else if w = ['B'] ∧ prev = ['A'] then -1
  else if w = ['C'] ∧ prev = ['B'] then -1
  else if w = ['C'] ∧ prev = ['A', 'B'] then -1
  else -10

/-- The identity key stream over `ℕ` keys. -/
def natGen : ℕ → ℕ := fun n => n

/-- A decryption function under which the first generated key (`0`) succeeds
with *empty* plaintext while every other key succeeds with `"A"`: the
acquisition loop never regenerates and never terminates on it. -/
def hangDec : ℕ → Option (List Char) := fun k => if k = 0 then some [] else some ['A']

/-- A decryption function under which key `0` raises and every other key
succeeds with `"B"` — acquisition discards key `0` and returns key `1`. -/
def skipDec : ℕ → Option (List Char) := fun k => if k = 0 then none else some ['B']

/-- Concrete annealing collaborators for the termination-check
counterexample: the step-0 mutation (key `0`) fails to decrypt, the step-1
mutation (key `1`) decrypts to `"X"`. -/
def cexDec : ℕ → Option (List Char) := fun k => if k = 1 then some ['X'] else none

/-- Mutation stream for the counterexample: step `i` proposes key `i`. -/
def cexMut : ℕ → ℕ → ℕ := fun i _ => i

/-- Scoring function for the counterexample: every text scores `100`. -/
def cexScore : List Char → ℚ := fun _ => 100

/-- Stand-in for `math.exp` in the counterexample. -/
def cexExp : ℚ → ℚ := fun _ => 0

/-- Uniform-draw stream for the counterexample. -/
def cexRand : ℕ → ℚ := fun _ => 1

/-! ## Lemmas: the `-inf` order -/

@[simp] lemma optLt_none_none : optLt none none = false := rfl

@[simp] lemma optLt_none_some (a : ℚ) : optLt none (some a) = true := rfl

@[simp] lemma optLt_some_none (a : ℚ) : optLt (some a) none = false := rfl

@[simp] lemma optLt_some_some (a b : ℚ) : optLt (some a) (some b) = decide (a < b) := rfl

lemma oLe_none (x : Option ℚ) : oLe none x := by
  cases x <;> simp [oLe]

@[simp] lemma oLe_some_some {a b : ℚ} : oLe (some a) (some b) ↔ a ≤ b := by
  simp [oLe, not_lt]

@[simp] lemma not_oLe_some_none {a : ℚ} : ¬ oLe (some a) none := by
  simp [oLe]

lemma oLe_refl (x : Option ℚ) : oLe x x := by
  cases x <;> simp [oLe]

lemma oLe_trans {a b c : Option ℚ} (h1 : oLe a b) (h2 : oLe b c) : oLe a c := by
  cases a <;> cases b <;> cases c <;> simp_all [oLe, not_lt]
  linarith

lemma oLe_of_optLt {a b : Option ℚ} (h : optLt a b = true) : oLe a b := by
  cases a <;> cases b <;> simp_all [oLe, not_lt]
  linarith

lemma oLe_of_not_optLt {a b : Option ℚ} (h : optLt a b = false) : oLe b a := h

lemma oLe_some_left {a : ℚ} {x : Option ℚ} (h : oLe (some a) x) :
    ∃ b, x = some b ∧ a ≤ b := by
  cases x with
  | none => exact absurd h not_oLe_some_none
  | some b => exact ⟨b, rfl, oLe_some_some.mp h⟩

/-! ## Lemmas: `maxByFst` (Python's `max(ends, key=lambda x: x[0])`) -/

lemma mbFold_mem :
    ∀ (rest : List Cell) (cur : Cell),
      rest.foldl (fun cur x => if optLt cur.1 x.1 then x else cur) cur ∈ cur :: rest := by
  intro rest
  induction rest with
  | nil => intro cur; simp
  | cons x rest ih =>
    intro cur
    simp only [List.foldl_cons]
    rcases List.mem_cons.mp (ih (if optLt cur.1 x.1 then x else cur)) with h | h
    · rcases ite_eq_or_eq (optLt cur.1 x.1 = true) x cur with he | he <;>
        rw [he] at h ⊢ <;> simp [h]
    · simp [List.mem_cons, h]

lemma mbFold_ge_init :
    ∀ (rest : List Cell) (cur : Cell),
      oLe cur.1 (rest.foldl (fun cur x => if optLt cur.1 x.1 then x else cur) cur).1 := by
  intro rest
  induction rest with
  | nil => intro cur; exact oLe_refl _
  | cons x rest ih =>
    intro cur
    simp only [List.foldl_cons]
    refine oLe_trans ?_ (ih (if optLt cur.1 x.1 then x else cur))
    by_cases hx : optLt cur.1 x.1 = true
    · simp [hx]; exact oLe_of_optLt hx
    · simp [hx]; exact oLe_refl _

lemma mbFold_ge_mem :
    ∀ (rest : List Cell) (cur : Cell), ∀ x ∈ rest,
      oLe x.1 (rest.foldl (fun cur x => if optLt cur.1 x.1 then x else cur) cur).1 := by
  intro rest
  induction rest with
  | nil => intro cur x hx; simp at hx
  | cons y rest ih =>
    intro cur x hx
    simp only [List.foldl_cons]
    rcases List.mem_cons.mp hx with h | h
    · subst h
      refine oLe_trans ?_ (mbFold_ge_init rest (if optLt cur.1 x.1 then x else cur))
      by_cases hx' : optLt cur.1 x.1 = true
      · simp [hx']; exact oLe_refl _
      · simp [hx']
        exact oLe_of_not_optLt (by simpa using hx')
    · exact ih _ x h

lemma maxByFst_mem {es : List Cell} {e : Cell} (h : maxByFst es = some e) : e ∈ es := by
  cases es with
  | nil => simp [maxByFst] at h
  | cons a rest =>
    simp only [maxByFst, Option.some.injEq] at h
    subst h
    exact mbFold_mem rest a

lemma maxByFst_ge {es : List Cell} {e : Cell} (h : maxByFst es = some e) :
    ∀ x ∈ es, oLe x.1 e.1 := by
  cases es with
  | nil => simp [maxByFst] at h
  | cons a rest =>
    simp only [maxByFst, Option.some.injEq] at h
    subst h
    intro x hx
    rcases List.mem_cons.mp hx with h | h
    · subst h; exact mbFold_ge_init rest x
    · exact mbFold_ge_mem rest a x h

lemma maxByFst_ne_none {es : List Cell} (h : es ≠ []) : ∃ e, maxByFst es = some e := by
  cases es with
  | nil => exact absurd rfl h
  | cons a rest => exact ⟨_, rfl⟩

/-! ## Lemmas: the inner boundary loop `bpGo` -/

lemma bpStep_eq (cpw : Word → Word → ℚ) (t : List Char) (table : List (List Cell))
    (i j : ℕ) (best : Cell) (k : ℕ) :
    bpStep cpw t table i j best k =
      match candOf cpw t table i j k with
      | none => best
      | some c => if optLt best.1 c.1 then c else best := by
  unfold bpStep candOf
  cases (getCell table (i - k - 1) k).1 <;> rfl

lemma bpStep_ge_init (cpw : Word → Word → ℚ) (t : List Char)
    (table : List (List Cell)) (i j : ℕ) (best : Cell) (k : ℕ) :
    oLe best.1 (bpStep cpw t table i j best k).1 := by
  rw [bpStep_eq]
  cases h : candOf cpw t table i j k with
  | none => exact oLe_refl _
  | some c =>
    by_cases hb : optLt best.1 c.1 = true
    · simp [hb]; exact oLe_of_optLt hb
    · simp [hb]; exact oLe_refl _

lemma bpStep_cases (cpw : Word → Word → ℚ) (t : List Char)
    (table : List (List Cell)) (i j : ℕ) (best : Cell) (k : ℕ) :
    bpStep cpw t table i j best k = best ∨
      candOf cpw t table i j k = some (bpStep cpw t table i j best k) := by
  rw [bpStep_eq]
  cases h : candOf cpw t table i j k with
  | none => exact Or.inl rfl
  | some c =>
    by_cases hb : optLt best.1 c.1 = true
    · simp [hb]
    · simp [hb]

lemma bpStep_ge_cand (cpw : Word → Word → ℚ) (t : List Char)
    (table : List (List Cell)) (i j : ℕ) (best : Cell) (k : ℕ) {c : Cell}
    (h : candOf cpw t table i j k = some c) :
    oLe c.1 (bpStep cpw t table i j best k).1 := by
  rw [bpStep_eq, h]
  by_cases hb : optLt best.1 c.1 = true
  · simp [hb]; exact oLe_refl _
  · simp [hb]
    exact oLe_of_not_optLt (by simpa using hb)

lemma bpGo_ge_init (cpw : Word → Word → ℚ) (t : List Char)
    (table : List (List Cell)) (i j : ℕ) :
    ∀ (ks : List ℕ) (best : Cell), oLe best.1 (bpGo cpw t table i j best ks).1 := by
  intro ks
  induction ks with
  | nil => intro best; exact oLe_refl _
  | cons k ks ih =>
    intro best
    exact oLe_trans (bpStep_ge_init cpw t table i j best k) (ih _)

lemma bpGo_cases (cpw : Word → Word → ℚ) (t : List Char)
    (table : List (List Cell)) (i j : ℕ) :
    ∀ (ks : List ℕ) (best : Cell),
      bpGo cpw t table i j best ks = best ∨
        ∃ k ∈ ks, candOf cpw t table i j k = some (bpGo cpw t table i j best ks) := by
  intro ks
  induction ks with
  | nil => intro best; exact Or.inl rfl
  | cons k ks ih =>
    intro best
    rcases ih (bpStep cpw t table i j best k) with h | ⟨k', hk', hc⟩
    · rcases bpStep_cases cpw t table i j best k with h2 | h2
      · refine Or.inl ?_
        show bpGo cpw t table i j (bpStep cpw t table i j best k) ks = best
        rw [h2] at h ⊢
        exact h
      · refine Or.inr ⟨k, List.mem_cons_self _ _, ?_⟩
        show candOf cpw t table i j k =
          some (bpGo cpw t table i j (bpStep cpw t table i j best k) ks)
        rw [h]
        exact h2
    · exact Or.inr ⟨k', List.mem_cons_of_mem _ hk', hc⟩

lemma bpGo_ge_cand (cpw : Word → Word → ℚ) (t : List Char)
    (table : List (List Cell)) (i j : ℕ) :
    ∀ (ks : List ℕ) (best : Cell) (k : ℕ), k ∈ ks → ∀ c : Cell,
      candOf cpw t table i j k = some c → oLe c.1 (bpGo cpw t table i j best ks).1 := by
  intro ks
  induction ks with
  | nil => intro best k hk; simp at hk
  | cons k' ks ih =>
    intro best k hk c hc
    rcases List.mem_cons.mp hk with h | h
    · subst h
      exact oLe_trans (bpStep_ge_cand cpw t table i j best k hc)
        (bpGo_ge_init cpw t table i j ks _)
    · exact ih _ k h c hc

lemma bpStep_congr (cpw : Word → Word → ℚ) (t : List Char)
    {table table' : List (List Cell)} (i j k : ℕ)
    (h : getCell table (i - k - 1) k = getCell table' (i - k - 1) k) (best : Cell) :
    bpStep cpw t table i j best k = bpStep cpw t table' i j best k := by
  unfold bpStep
  rw [h]

lemma bpGo_congr (cpw : Word → Word → ℚ) (t : List Char)
    {table table' : List (List Cell)} (i j : ℕ) :
    ∀ (ks : List ℕ),
      (∀ k ∈ ks, getCell table (i - k - 1) k = getCell table' (i - k - 1) k) →
      ∀ best : Cell, bpGo cpw t table i j best ks = bpGo cpw t table' i j best ks := by
  intro ks
  induction ks with
  | nil => intro _ best; rfl
  | cons k ks ih =>
    intro h best
    simp only [bpGo]
    rw [bpStep_congr cpw t i j k (h k (List.mem_cons_self _ _)) best]
    exact ih (fun k' hk' => h k' (List.mem_cons_of_mem _ hk')) _

lemma bestPrev_congr (cpw : Word → Word → ℚ) (t : List Char) (L : ℕ)
    {table table' : List (List Cell)} (i j : ℕ)
    (h : ∀ k ∈ List.range (min i L),
      getCell table (i - k - 1) k = getCell table' (i - k - 1) k) :
    bestPrev cpw t L table i j = bestPrev cpw t L table' i j :=
  bpGo_congr cpw t i j _ h _

/-! ## Lemmas: structure of the DP table -/

lemma length_tableUpTo (cpw : Word → Word → ℚ) (t : List Char) (L : ℕ) :
    ∀ m, (tableUpTo cpw t L m).length = m + 1 := by
  intro m
  induction m with
  | zero => rfl
  | succ m ih => simp [tableUpTo, ih]

lemma getCell_stable (cpw : Word → Word → ℚ) (t : List Char) (L : ℕ)
    {i m m' : ℕ} (him : i ≤ m) (hmm : m ≤ m') (j : ℕ) :
    getCell (tableUpTo cpw t L m') i j = getCell (tableUpTo cpw t L m) i j := by
  induction m', hmm using Nat.le_induction with
  | base => rfl
  | succ m' hm ih =>
    rw [← ih]
    show getCell (tableUpTo cpw t L m' ++ _) i j = _
    unfold getCell
    rw [List.getD_append _ _ _ _ (by rw [length_tableUpTo]; omega)]

lemma getCell_row0 (cpw : Word → Word → ℚ) (t : List Char) (L : ℕ) (m j : ℕ) :
    getCell (tableUpTo cpw t L m) 0 j =
      if j < L then (some (cpw (sub t 0 (j + 1)) UNK), [sub t 0 (j + 1)])
      else ((none, []) : Cell) := by
  rw [getCell_stable cpw t L (le_refl 0) (Nat.zero_le m) j]
  show getCell [row0 cpw t L] 0 j = _
  unfold getCell row0
  by_cases hj : j < L
  · simp [List.getD_eq_getElem?_getD, List.getElem?_map, List.getElem?_range hj, hj]
  · have hLj : (List.range L).length ≤ j := by simpa using Nat.le_of_not_lt hj
    simp [List.getD_eq_getElem?_getD, List.getElem?_map, List.getElem?_eq_none hLj, hj]

lemma getCell_high (cpw : Word → Word → ℚ) (t : List Char) (L : ℕ)
    {m i : ℕ} (h : m + 1 ≤ i) (j : ℕ) :
    getCell (tableUpTo cpw t L m) i j = ((none, []) : Cell) := by
  have hrow : (tableUpTo cpw t L m).getD i [] = [] :=
    List.getD_eq_default _ _ (by rw [length_tableUpTo]; omega)
  unfold getCell
  rw [hrow]
  rfl

lemma getCell_rowI (cpw : Word → Word → ℚ) (t : List Char) (L : ℕ)
    {i m : ℕ} (h1 : 1 ≤ i) (hm : i ≤ m) (j : ℕ) :
    getCell (tableUpTo cpw t L m) i j =
      if j < L ∧ j < t.length - i then bestPrev cpw t L (tableUpTo cpw t L (i - 1)) i j
      else ((none, []) : Cell) := by
  rw [getCell_stable cpw t L (le_refl i) hm j]
  obtain ⟨p, rfl⟩ : ∃ p, i = p + 1 := ⟨i - 1, by omega⟩
  show getCell (tableUpTo cpw t L p ++ [rowI cpw t L (tableUpTo cpw t L p) (p + 1)]) _ j = _
  unfold getCell
  rw [List.getD_append_right _ _ _ _ (by rw [length_tableUpTo])]
  rw [length_tableUpTo]
  simp only [Nat.sub_self, List.getD_cons_zero, Nat.add_sub_cancel]
  unfold rowI
  by_cases hj : j < L
  · rw [List.getD_eq_getElem?_getD]
    rw [List.getElem?_map, List.getElem?_range hj]
    simp only [Option.map_some', Option.getD_some]
    by_cases hj2 : j < t.length - (p + 1)
    · rw [if_pos (lt_min hj hj2), if_pos ⟨hj, hj2⟩]
    · rw [if_neg (by simp [lt_min_iff, hj2]), if_neg (by simp [hj2])]
  · rw [List.getD_eq_getElem?_getD,
      List.getElem?_map, List.getElem?_eq_none (by simpa using Nat.le_of_not_lt hj)]
    simp [hj]

lemma getCell_rowI_full (cpw : Word → Word → ℚ) (t : List Char) (L : ℕ)
    {i : ℕ} (h1 : 1 ≤ i) (hin : i ≤ t.length - 1) (j : ℕ) :
    getCell (tableUpTo cpw t L (t.length - 1)) i j =
      if j < L ∧ j < t.length - i then
        bestPrev cpw t L (tableUpTo cpw t L (t.length - 1)) i j
      else ((none, []) : Cell) := by
  rw [getCell_rowI cpw t L h1 hin j]
  congr 1
  exact bestPrev_congr cpw t L i j (fun k hk =>
    (getCell_stable cpw t L (by omega) (by omega) k).symm)

/-! ## Lemmas: segmentations and path scores -/

lemma sub_zero (t : List Char) (m : ℕ) : sub t 0 m = t.take m := by
  simp [sub]

lemma length_sub (t : List Char) (s m : ℕ) :
    (sub t s m).length = min m (t.length - s) := by
  simp [sub]

lemma chainScore_append (cpw : Word → Word → ℚ) :
    ∀ (ws : List Word) (prev w : Word),
      chainScore cpw prev (ws ++ [w]) = chainScore cpw prev ws + cpw w (ws.getLastD prev) := by
  intro ws
  induction ws with
  | nil => intro prev w; simp [chainScore]
  | cons a ws ih =>
    intro prev w
    simp only [List.cons_append, chainScore, List.getLastD_cons, List.append_eq]
    rw [ih a w]
    ring

lemma pathScore_concat (cpw : Word → Word → ℚ) {ws : List Word} {lw : Word}
    (hlast : ws.getLast? = some lw) (w : Word) :
    pathScore cpw (ws ++ [w]) = pathScore cpw ws + cpw w lw := by
  unfold pathScore
  rw [chainScore_append, List.getLastD_eq_getLast?, hlast]
  rfl

lemma mem_of_getLast? {ws : List Word} {w : Word} (h : ws.getLast? = some w) : w ∈ ws := by
  obtain ⟨ys, rfl⟩ := List.getLast?_eq_some_iff.mp h
  simp

lemma member_length_le {ws : List Word} {w : Word} (h : w ∈ ws) :
    w.length ≤ ws.flatten.length := by
  rw [List.length_flatten]
  exact List.single_le_sum (fun x _ => Nat.zero_le x) _ (List.mem_map.mpr ⟨w, h, rfl⟩)

/-- A non-empty list of non-empty words whose concatenation equals its own
last word is that single word. -/
lemma seg_single {ws : List Word} {lw : Word} (hok : ∀ w ∈ ws, w ≠ [])
    (hflat : ws.flatten = lw) (hlast : ws.getLast? = some lw) : ws = [lw] := by
  have hsplit : ws.dropLast ++ [lw] = ws := List.dropLast_append_getLast? lw hlast
  have hflat2 : ws.dropLast.flatten ++ lw = lw := by
    have := congrArg List.flatten hsplit
    simp only [List.flatten_append, List.flatten_cons, List.flatten_nil,
      List.append_nil] at this
    rw [this, hflat]
  have hnil : ws.dropLast.flatten = [] := by
    have hlen := congrArg List.length hflat2
    simp only [List.length_append] at hlen
    exact List.eq_nil_of_length_eq_zero (by omega)
  have hdrop : ws.dropLast = [] := by
    cases hd : ws.dropLast with
    | nil => rfl
    | cons a l =>
      exfalso
      have ha : a = [] := by
        have := List.flatten_eq_nil_iff.mp (hd ▸ hnil) a (by simp)
        exact this
      exact hok a (List.dropLast_subset ws (hd ▸ List.mem_cons_self a l)) ha
  rw [← hsplit, hdrop]
  rfl

/-- If the words `ws` concatenate to `t.take i`, the last word (of length
`m ≤ i`) occupies the final `m` positions: it equals `t[i - m : i]`. -/
lemma last_word_eq {t : List Char} {ws : List Word} {w : Word} {i : ℕ}
    (hlast : ws.getLast? = some w) (hflat : ws.flatten = t.take i)
    (hi : i ≤ t.length) (hw : w.length ≤ i) :
    w = sub t (i - w.length) w.length := by
  have hsplit : ws.dropLast ++ [w] = ws := List.dropLast_append_getLast? w hlast
  have hflat2 : ws.dropLast.flatten ++ w = t.take i := by
    have := congrArg List.flatten hsplit
    simp only [List.flatten_append, List.flatten_cons, List.flatten_nil,
      List.append_nil] at this
    rw [this, hflat]
  have hplen : ws.dropLast.flatten.length = i - w.length := by
    have hlen := congrArg List.length hflat2
    simp only [List.length_append, List.length_take] at hlen
    omega
  have hdropeq : w = (t.take i).drop (i - w.length) := by
    rw [← hflat2, ← hplen, List.drop_left]
  have harg : i - (i - w.length) = w.length := by omega
  have h2 : (t.take i).drop (i - w.length) = sub t (i - w.length) w.length := by
    rw [List.drop_take, harg]
    rfl
  exact hdropeq.trans h2

lemma flatten_map_singleton : ∀ t : List Char, (t.map (fun c => [c])).flatten = t := by
  intro t
  induction t with
  | nil => rfl
  | cons c t ih => simp [ih]

/-! ## The main DP invariant

For every cell of the completed table: (soundness) a finite cell holds a
segmentation of the corresponding prefix ending in the corresponding last
word, whose path score is exactly the stored value; (completeness) every
such segmentation has path score at most the stored value. -/

lemma dp_inv (cpw : Word → Word → ℚ) (t : List Char) (L : ℕ) (hL : L ≤ t.length) :
    ∀ i : ℕ,
      (∀ j v ws, getCell (tableUpTo cpw t L (t.length - 1)) i j = (some v, ws) →
        SegEnd L t i j ws ∧ pathScore cpw ws = v) ∧
      (∀ j ws, SegEnd L t i j ws →
        ∃ v sws, getCell (tableUpTo cpw t L (t.length - 1)) i j = (some v, sws) ∧
          pathScore cpw ws ≤ v) := by
  intro i
  induction i using Nat.strong_induction_on with
  | _ i IH =>
  constructor
  · -- soundness
    intro j v ws hcell
    rcases Nat.eq_zero_or_pos i with hi0 | hi1
    · subst hi0
      rw [getCell_row0] at hcell
      by_cases hj : j < L
      · rw [if_pos hj] at hcell
        obtain ⟨hv, hws⟩ := Prod.mk.injEq .. ▸ hcell
        obtain rfl : v = cpw (sub t 0 (j + 1)) UNK := (Option.some.injEq .. ▸ hv).symm
        subst hws
        have hwlen : (sub t 0 (j + 1)).length = j + 1 := by
          rw [length_sub]; omega
        refine ⟨⟨?_, by simp, ?_, by simp, by omega⟩, ?_⟩
        · intro w hw
          rw [List.mem_singleton] at hw
          subst hw
          constructor
          · intro hnil; rw [hnil] at hwlen; simp at hwlen
          · omega
        · rw [sub_zero]
          simp
        · simp [pathScore, chainScore]
      · rw [if_neg hj] at hcell
        exact absurd (congrArg Prod.fst hcell) (by simp)
    · by_cases hin : i ≤ t.length - 1
      · rw [getCell_rowI_full cpw t L hi1 hin] at hcell
        by_cases hcond : j < L ∧ j < t.length - i
        · rw [if_pos hcond] at hcell
          have hcell2 : bpGo cpw t (tableUpTo cpw t L (t.length - 1)) i j
              ((none, []) : Cell) (List.range (min i L)) = (some v, ws) := hcell
          rcases bpGo_cases cpw t (tableUpTo cpw t L (t.length - 1)) i j
            (List.range (min i L)) ((none, []) : Cell) with hbp | ⟨k, hkmem, hck⟩
          · rw [hbp] at hcell2
            exact absurd (congrArg Prod.fst hcell2) (by simp)
          · rw [hcell2] at hck
            rw [List.mem_range, lt_min_iff] at hkmem
            cases hpc1 : (getCell (tableUpTo cpw t L (t.length - 1)) (i - k - 1) k).1 with
            | none => unfold candOf at hck; rw [hpc1] at hck; simp at hck
            | some pv =>
              unfold candOf at hck
              rw [hpc1] at hck
              simp only [Option.some.injEq, Prod.mk.injEq] at hck
              obtain ⟨hv, hws⟩ := hck
              set pseg := (getCell (tableUpTo cpw t L (t.length - 1)) (i - k - 1) k).2 with hpsegdef
              have hpcell : getCell (tableUpTo cpw t L (t.length - 1)) (i - k - 1) k = (some pv, pseg) :=
                Prod.ext hpc1 rfl
              obtain ⟨hseg', hps'⟩ := (IH (i - k - 1) (by omega)).1 k pv pseg hpcell
              obtain ⟨hok', hne', hflat', hlast', hlen'⟩ := hseg'
              have hik : i - k - 1 + k + 1 = i := by omega
              have hwordlen : (sub t i (j + 1)).length = j + 1 := by
                rw [length_sub]; omega
              have hlastD : pseg.getLastD [] = sub t (i - k - 1) (k + 1) := by
                rw [List.getLastD_eq_getLast?, hlast']
                rfl
              subst hws
              refine ⟨⟨?_, by simp, ?_, List.getLast?_concat _, by omega⟩, ?_⟩
              · intro w hw
                rcases List.mem_append.mp hw with hw | hw
                · exact hok' w hw
                · rw [List.mem_singleton] at hw
                  subst hw
                  exact ⟨by intro hnil; rw [hnil] at hwordlen; simp at hwordlen, by omega⟩
              · have : (pseg ++ [sub t i (j + 1)]).flatten = pseg.flatten ++ sub t i (j + 1) := by
                  simp
                rw [this, hflat', hik]
                have : i + j + 1 = i + (j + 1) := by omega
                rw [this, List.take_add]
                rfl
              · rw [hlastD] at hv
                rw [pathScore_concat cpw hlast', hps']
                exact hv
        · rw [if_neg hcond] at hcell
          exact absurd (congrArg Prod.fst hcell) (by simp)
      · rw [getCell_high cpw t L (by omega)] at hcell
        exact absurd (congrArg Prod.fst hcell) (by simp)
  · -- completeness
    intro j ws hseg
    obtain ⟨hok, hne, hflat, hlast, hlen⟩ := hseg
    have hwmem : sub t i (j + 1) ∈ ws := mem_of_getLast? hlast
    have hwordlen : (sub t i (j + 1)).length = j + 1 := by
      rw [length_sub]; omega
    have hjL : j < L := by
      have := (hok _ hwmem).2
      omega
    rcases Nat.eq_zero_or_pos i with hi0 | hi1
    · subst hi0
      have hsingle : ws = [sub t 0 (j + 1)] := by
        refine seg_single (fun w hw => (hok w hw).1) ?_ hlast
        rw [hflat, sub_zero]
        norm_num
      rw [getCell_row0]
      rw [if_pos hjL]
      refine ⟨cpw (sub t 0 (j + 1)) UNK, [sub t 0 (j + 1)], rfl, ?_⟩
      rw [hsingle]
      simp [pathScore, chainScore]
    · -- decompose ws = ws.dropLast ++ [last word]
      have hsplit : ws.dropLast ++ [sub t i (j + 1)] = ws :=
        List.dropLast_append_getLast? _ hlast
      have hflatsplit : ws.dropLast.flatten ++ sub t i (j + 1) = t.take (i + j + 1) := by
        have := congrArg List.flatten hsplit
        simp only [List.flatten_append, List.flatten_cons, List.flatten_nil,
          List.append_nil] at this
        rw [this, hflat]
      have htake : t.take (i + j + 1) = t.take i ++ sub t i (j + 1) := by
        have h1 : i + j + 1 = i + (j + 1) := by omega
        rw [h1, List.take_add]
        rfl
      have hflat' : ws.dropLast.flatten = t.take i :=
        List.append_cancel_right (by rw [hflatsplit, htake])
      have hne' : ws.dropLast ≠ [] := by
        intro hd
        have hws : ws = [sub t i (j + 1)] := by rw [← hsplit, hd]; rfl
        have := congrArg List.length (hws ▸ hflat)
        simp only [List.flatten_cons, List.flatten_nil, List.append_nil,
          List.length_take] at this
        rw [hwordlen] at this
        omega
      obtain ⟨w', hw'⟩ : ∃ w', ws.dropLast.getLast? = some w' :=
        Option.isSome_iff_exists.mp (List.getLast?_isSome.mpr hne')
      have hw'mem : w' ∈ ws := List.dropLast_subset ws (mem_of_getLast? hw')
      have hw'ne : w' ≠ [] := (hok w' hw'mem).1
      have hw'len1 : 1 ≤ w'.length := by
        cases hwl : w'.length with
        | zero => exact absurd (List.eq_nil_of_length_eq_zero hwl) hw'ne
        | succ m => omega
      have hw'le : w'.length ≤ i := by
        have := member_length_le (mem_of_getLast? hw')
        rw [hflat', List.length_take] at this
        omega
      have hw'eq : w' = sub t (i - w'.length) w'.length :=
        last_word_eq hw' hflat' (by omega) hw'le
      set k := w'.length - 1 with hkdef
      have hk1 : k + 1 = w'.length := by omega
      have hkL : k < L := by
        have := (hok w' hw'mem).2
        omega
      have hki : k < i := by omega
      have hsegend : SegEnd L t (i - k - 1) k ws.dropLast := by
        refine ⟨fun w hw => hok w (List.dropLast_subset ws hw), hne', ?_, ?_, by omega⟩
        · rw [hflat']
          congr 1
          omega
        · rw [hw', hw'eq, hk1]
          congr 2
          omega
      obtain ⟨pv, pseg, hpcell, hple⟩ := (IH (i - k - 1) (by omega)).2 k ws.dropLast hsegend
      obtain ⟨⟨_, _, _, hplast, _⟩, _⟩ := (IH (i - k - 1) (by omega)).1 k pv pseg hpcell
      have hcand : candOf cpw t (tableUpTo cpw t L (t.length - 1)) i j k =
          some (some (pv + cpw (sub t i (j + 1)) w'),
            pseg ++ [sub t i (j + 1)]) := by
        unfold candOf
        rw [hpcell]
        simp only [List.getLastD_eq_getLast?, hplast, Option.getD_some]
        rw [hw'eq, hk1]
        have : i - w'.length = i - k - 1 := by omega
        rw [this]
      have hcellij : getCell (tableUpTo cpw t L (t.length - 1)) i j =
          bestPrev cpw t L (tableUpTo cpw t L (t.length - 1)) i j := by
        rw [getCell_rowI_full cpw t L hi1 (by omega), if_pos ⟨hjL, by omega⟩]
      have hge := bpGo_ge_cand cpw t (tableUpTo cpw t L (t.length - 1)) i j
        (List.range (min i L)) ((none, []) : Cell) k
        (List.mem_range.mpr (lt_min hki hkL)) _ hcand
      have hge2 : oLe (some (pv + cpw (sub t i (j + 1)) w'))
          (bestPrev cpw t L (tableUpTo cpw t L (t.length - 1)) i j).1 := hge
      obtain ⟨v, hv, hcv⟩ := oLe_some_left hge2
      refine ⟨v, (bestPrev cpw t L (tableUpTo cpw t L (t.length - 1)) i j).2, ?_, ?_⟩
      · rw [hcellij, ← hv, Prod.mk.eta]
      · have hpsws : pathScore cpw ws = pathScore cpw ws.dropLast + cpw (sub t i (j + 1)) w' := by
          conv_lhs => rw [← hsplit]
          exact pathScore_concat cpw hw' _
        rw [hpsws]
        have : pathScore cpw ws.dropLast + cpw (sub t i (j + 1)) w' ≤
            pv + cpw (sub t i (j + 1)) w' := by linarith
        linarith

/-! ## Assembly: soundness and optimality of `_score_impl` -/

lemma score_impl_def (cpw : Word → Word → ℚ) (maxWordLen : ℕ) (t : List Char) :
    score_impl cpw maxWordLen t =
      maxByFst ((List.range (min t.length (min maxWordLen t.length))).map
        (fun q => getCell (tableUpTo cpw t (min maxWordLen t.length) (t.length - 1))
          (t.length - q - 1) q)) := rfl

lemma isSegOf_min {maxWordLen : ℕ} {t : List Char} {ws : List Word} :
    IsSegOf (min maxWordLen t.length) t ws ↔ IsSegOf maxWordLen t ws := by
  constructor
  · rintro ⟨hok, hne, hflat⟩
    exact ⟨fun w hw => ⟨(hok w hw).1, le_trans (hok w hw).2 (min_le_left _ _)⟩, hne, hflat⟩
  · rintro ⟨hok, hne, hflat⟩
    refine ⟨fun w hw => ⟨(hok w hw).1, ?_⟩, hne, hflat⟩
    have hwn := member_length_le hw
    rw [hflat] at hwn
    exact le_min (hok w hw).2 hwn

lemma score_impl_spec (cpw : Word → Word → ℚ) (maxWordLen : ℕ) (t : List Char)
    (hmax : 1 ≤ maxWordLen) (hne : t ≠ []) :
    ∃ s seg, score_impl cpw maxWordLen t = some (some s, seg) ∧
      IsSegOf (min maxWordLen t.length) t seg ∧ pathScore cpw seg = s ∧
      ∀ ws, IsSegOf (min maxWordLen t.length) t ws → pathScore cpw ws ≤ s := by
  have hn1 : 1 ≤ t.length := List.length_pos.mpr hne
  set L := min maxWordLen t.length with hLdef
  have hL : L ≤ t.length := min_le_right _ _
  have hL1 : 1 ≤ L := le_min hmax hn1
  have hval : score_impl cpw maxWordLen t =
      maxByFst ((List.range L).map
        (fun q => getCell (tableUpTo cpw t L (t.length - 1)) (t.length - q - 1) q)) := by
    rw [score_impl_def, ← hLdef, min_eq_right hL]
  set ends := (List.range L).map
    (fun q => getCell (tableUpTo cpw t L (t.length - 1)) (t.length - q - 1) q) with hendsdef
  -- the all-singletons segmentation witnesses that the cell (n-1, 0) is finite
  obtain ⟨c, hc⟩ : ∃ c, t.getLast? = some c :=
    Option.isSome_iff_exists.mp (List.getLast?_isSome.mpr hne)
  have hflat0 : (t.map fun ch => [ch]).flatten = t := flatten_map_singleton t
  have hlast0 : (t.map fun ch => [ch]).getLast? = some [c] := by
    rw [List.getLast?_map, hc]
    rfl
  have hws0 : SegEnd L t (t.length - 1) 0 (t.map fun ch => [ch]) := by
    refine ⟨?_, ?_, ?_, ?_, by omega⟩
    · intro w hw
      obtain ⟨a, _, rfl⟩ := List.mem_map.mp hw
      exact ⟨by simp, by simpa using hL1⟩
    · simpa using hne
    · rw [hflat0]
      have h : t.length - 1 + 0 + 1 = t.length := by omega
      rw [h, List.take_length]
    · rw [hlast0]
      have h := last_word_eq hlast0 (by rw [hflat0]; exact (List.take_length t).symm)
        (le_refl _) (by simpa using hn1)
      exact congrArg some h
  obtain ⟨v0, sws0, hcell0, _⟩ := (dp_inv cpw t L hL (t.length - 1)).2 0 _ hws0
  have hmem0 : ((some v0, sws0) : Cell) ∈ ends := by
    rw [hendsdef]
    exact List.mem_map.mpr ⟨0, List.mem_range.mpr hL1, hcell0⟩
  have hnonempty : ends ≠ [] := by
    rw [hendsdef]
    simp only [ne_eq, List.map_eq_nil_iff, List.range_eq_nil]
    omega
  obtain ⟨e, he⟩ := maxByFst_ne_none hnonempty
  obtain ⟨s, hs, _⟩ := oLe_some_left (maxByFst_ge he _ hmem0)
  have hemem := maxByFst_mem he
  rw [hendsdef] at hemem
  obtain ⟨q, hq, heq⟩ := List.mem_map.mp hemem
  rw [List.mem_range] at hq
  have hecell : getCell (tableUpTo cpw t L (t.length - 1)) (t.length - q - 1) q = (some s, e.2) :=
    heq.trans (Prod.ext hs rfl)
  obtain ⟨⟨hokE, hneE, hflatE, _, _⟩, hpsE⟩ := (dp_inv cpw t L hL _).1 q s e.2 hecell
  have hflatE' : e.2.flatten = t := by
    rw [hflatE]
    have h : t.length - q - 1 + q + 1 = t.length := by omega
    rw [h, List.take_length]
  refine ⟨s, e.2, ?_, ⟨hokE, hneE, hflatE'⟩, hpsE, ?_⟩
  · rw [hval, he]
    exact congrArg some (Prod.ext hs rfl)
  · intro ws hwsSeg
    obtain ⟨hok, hne', hflat⟩ := hwsSeg
    obtain ⟨w, hlastw⟩ : ∃ w, ws.getLast? = some w :=
      Option.isSome_iff_exists.mp (List.getLast?_isSome.mpr hne')
    have hwmem := mem_of_getLast? hlastw
    have hm1 : 1 ≤ w.length := List.length_pos.mpr (hok w hwmem).1
    have hmL : w.length ≤ L := (hok w hwmem).2
    have hmn : w.length ≤ t.length := by
      have h := member_length_le hwmem
      rw [hflat] at h
      exact h
    have hweq : w = sub t (t.length - w.length) w.length :=
      last_word_eq hlastw (by rw [hflat]; exact (List.take_length t).symm) (le_refl _) hmn
    have hsegw : SegEnd L t (t.length - w.length) (w.length - 1) ws := by
      refine ⟨hok, hne', ?_, ?_, by omega⟩
      · rw [hflat]
        have h : t.length - w.length + (w.length - 1) + 1 = t.length := by omega
        rw [h, List.take_length]
      · have h1 : w.length - 1 + 1 = w.length := by omega
        rw [h1, hlastw]
        exact congrArg some hweq
    obtain ⟨v, sws, hcellw, hlew⟩ := (dp_inv cpw t L hL _).2 _ ws hsegw
    have hmemw : ((some v, sws) : Cell) ∈ ends := by
      rw [hendsdef]
      refine List.mem_map.mpr ⟨w.length - 1, List.mem_range.mpr (by omega), ?_⟩
      have hco : t.length - (w.length - 1) - 1 = t.length - w.length := by omega
      rw [hco]
      exact hcellw
    have hgew := maxByFst_ge he _ hmemw
    rw [hs] at hgew
    exact le_trans hlew (oLe_some_some.mp hgew)

/-! ## Claim theorems -/

/-- **C1.**  For every non-empty text and `maxWordLength ≥ 1` the DP of
`_WordScorer._score_impl` returns a segmentation into non-empty words of
length at most `maxWordLength` whose cumulative `cPw` log-probability is
maximal among all such segmentations (first conjunct).  Ties between
previous boundaries go to the first-seen `k`, i.e. the smallest previous
word length: with `tieCpw`, the cell for the final `"C"` of `"ABC"` receives
the value `-3` from both `k = 0` (previous word `"B"`) and `k = 1` (previous
word `"AB"`), and the returned segmentation is the `k = 0` one,
`["A", "B", "C"]` (second conjunct).  For the 3-entry toy lexicons, the DP
picks `{"AB"}` when `Pw("AB") > Pw("A") + Pw("B")` and `{"A", "B"}` when
`Pw("A") + Pw("B") > Pw("AB")` (third and fourth conjuncts). -/
theorem word_dp_optimal :
    (∀ (cpw : Word → Word → ℚ) (maxWordLen : ℕ) (t : List Char),
        1 ≤ maxWordLen → t ≠ [] →
        ∃ s seg, score_impl cpw maxWordLen t = some (some s, seg) ∧
          IsSegOf maxWordLen t seg ∧ pathScore cpw seg = s ∧
          ∀ ws, IsSegOf maxWordLen t ws → pathScore cpw ws ≤ s) ∧
    score_impl tieCpw 20 ['A', 'B', 'C'] = some (some (-3), [['A'], ['B'], ['C']]) ∧
    ((-2 : ℚ) > -4 + -3 ∧ analyze toyWhole ['A', 'B'] = some (some (-2), [['A', 'B']])) ∧
    ((-1 : ℚ) + -1 > -3 ∧ analyze toySplit ['A', 'B'] = some (some (-2), [['A'], ['B']])) := by
  refine ⟨?_, ?_, ⟨by norm_num, ?_⟩, ⟨by norm_num, ?_⟩⟩
  · intro cpw maxWordLen t hmax hne
    obtain ⟨s, seg, h1, h2, h3, h4⟩ := score_impl_spec cpw maxWordLen t hmax hne
    exact ⟨s, seg, h1, isSegOf_min.mp h2, h3,
      fun ws hws => h4 ws (isSegOf_min.mpr hws)⟩
  · have g1 : tieCpw ['A'] UNK = -1 := rfl
    have g2 : tieCpw ['A', 'B'] UNK = -2 := rfl
    have g3 : tieCpw ['A', 'B', 'C'] UNK = -10 := rfl
    have g4 : tieCpw ['B'] ['A'] = -1 := rfl
    have g5 : tieCpw ['B', 'C'] ['A'] = -10 := rfl
    have g6 : tieCpw ['C'] ['B'] = -1 := rfl
    have g7 : tieCpw ['C'] ['A', 'B'] = -1 := rfl
    norm_num [score_impl, tableUpTo, rowI, row0, bestPrev, bpGo, bpStep, getCell,
      maxByFst, sub, optLt, g1, g2, g3, g4, g5, g6, g7, List.range_succ]
  · have h1 : cPw toyWhole ['A'] UNK = -4 := rfl
    have h2 : cPw toyWhole ['A', 'B'] UNK = -2 := rfl
    have h3 : cPw toyWhole ['B'] ['A'] = -3 := rfl
    norm_num [analyze, score_impl, tableUpTo, rowI, row0, bestPrev, bpGo, bpStep,
      getCell, maxByFst, sub, optLt, h1, h2, h3, List.range_succ]
  · have h1 : cPw toySplit ['A'] UNK = -1 := rfl
    have h2 : cPw toySplit ['A', 'B'] UNK = -3 := rfl
    have h3 : cPw toySplit ['B'] ['A'] = -1 := rfl
    norm_num [analyze, score_impl, tableUpTo, rowI, row0, bestPrev, bpGo, bpStep,
      getCell, maxByFst, sub, optLt, h1, h2, h3, List.range_succ]

/-- Witness for C1 at a concrete input. -/
theorem word_dp_optimal_witness :
    ∃ s seg, score_impl (cPw toyWhole) 20 ['A', 'B'] = some (some s, seg) ∧
      IsSegOf 20 ['A', 'B'] seg ∧ pathScore (cPw toyWhole) seg = s ∧
      ∀ ws, IsSegOf 20 ['A', 'B'] ws → pathScore (cPw toyWhole) ws ≤ s :=
  word_dp_optimal.1 (cPw toyWhole) 20 ['A', 'B'] (by norm_num) (by simp)

/-- **C2.**  For every non-empty text (and `maxWordLength ≥ 1`), the DP
returns a segmentation whose concatenation is exactly the input, and hence
`word_segments` returns a list of words whose concatenation is the
case-folded input: `"".join(word_segments(text)) == text.upper()`. -/
theorem word_segments_concat :
    (∀ (cpw : Word → Word → ℚ) (maxWordLen : ℕ) (t : List Char),
        1 ≤ maxWordLen → t ≠ [] →
        ∃ s seg, score_impl cpw maxWordLen t = some (some s, seg) ∧ seg.flatten = t) ∧
    (∀ (d : WordData) (t : List Char), t ≠ [] →
        ∃ seg, word_segments d t = some seg ∧ seg.flatten = upper t) := by
  have main : ∀ (cpw : Word → Word → ℚ) (maxWordLen : ℕ) (t : List Char),
      1 ≤ maxWordLen → t ≠ [] →
      ∃ s seg, score_impl cpw maxWordLen t = some (some s, seg) ∧ seg.flatten = t := by
    intro cpw maxWordLen t hmax hne
    obtain ⟨s, seg, h1, ⟨_, _, hflat⟩, _, _⟩ := score_impl_spec cpw maxWordLen t hmax hne
    exact ⟨s, seg, h1, hflat⟩
  refine ⟨main, fun d t hne => ?_⟩
  have hne' : upper t ≠ [] := by
    simpa [upper] using hne
  obtain ⟨s, seg, h1, h2⟩ := main (cPw d) 20 (upper t) (by norm_num) hne'
  refine ⟨seg, ?_, h2⟩
  unfold word_segments analyze
  rw [h1]
  rfl

/-- Witness for C2 at a concrete input. -/
theorem word_segments_concat_witness :
    ∃ seg, word_segments toyWhole ['a', 'b'] = some seg ∧
      seg.flatten = upper ['a', 'b'] :=
  word_segments_concat.2 toyWhole ['a', 'b'] (by simp)

/-- **C5.**  The claim says `analyze("")` (and so `word_score("")` and
`word_segments("")`) returns score `0` with an empty segmentation.  On the
empty string the source instead reaches `max(ends, key=...)` with
`ends == []`, which raises `ValueError` (modelled by `none` = `maxByFst []`):
scoring the empty string fails rather than returning `(0, [])`. -/
theorem empty_text_scoring_fails :
    (∀ (cpw : Word → Word → ℚ) (maxWordLen : ℕ), score_impl cpw maxWordLen [] = none) ∧
    ∀ d : WordData, analyze d [] = none ∧ word_score d [] = none ∧
      word_segments d [] = none := by
  have main : ∀ (cpw : Word → Word → ℚ) (maxWordLen : ℕ),
      score_impl cpw maxWordLen [] = none := by
    intro cpw maxWordLen
    rw [score_impl_def]
    rw [show min ([] : List Char).length (min maxWordLen ([] : List Char).length) = 0 by simp]
    rfl
  refine ⟨main, fun d => ?_⟩
  have h : analyze d [] = none := main (cPw d) 20
  refine ⟨h, ?_, ?_⟩
  · unfold word_score
    rw [show upper [] = ([] : List Char) from rfl, h]
    rfl
  · unfold word_segments
    rw [show upper [] = ([] : List Char) from rfl, h]
    rfl

/-! ## N-gram scorer lemmas and claims C4, C9 -/

lemma sum_map_range_eq_finset_sum (f : ℕ → ℚ) :
    ∀ n : ℕ, ((List.range n).map f).sum = ∑ i ∈ Finset.range n, f i := by
  intro n
  induction n with
  | zero => rfl
  | succ n ih =>
    rw [List.range_succ, List.map_append, List.sum_append, Finset.sum_range_succ, ih]
    simp

lemma dictGet_eq_match (data : List (List Char × ℚ)) (key : List Char) (fl : ℚ) :
    dictGet data key fl =
      match data.lookup key with
      | some v => v
      | none => fl := by
  unfold dictGet
  cases data.lookup key <;> rfl

/-- **C4.**  `_NgramScorer.score` is the sum, over all window positions
`i ∈ [0, len(text) - L]`, of the tabulated value of the uppercased window
`text[i : i + L]`, with `floor` for absent windows (first conjunct); it is
`0` on text shorter than `L` (second conjunct); and on `"AAAA"` with a
monogram table holding only `A` at (log-)value `p` it returns `4 * p`
(third conjunct). -/
theorem ngram_score_spec :
    (∀ (data : List (List Char × ℚ)) (fl : ℚ) (ngramLen : ℕ) (text : List Char),
        ngram_score data fl ngramLen text =
          ∑ i ∈ Finset.range (text.length + 1 - ngramLen),
            (match data.lookup (upper (sub text i ngramLen)) with
             | some v => v
             | none => fl)) ∧
    (∀ (data : List (List Char × ℚ)) (fl : ℚ) (ngramLen : ℕ) (text : List Char),
        text.length < ngramLen → ngram_score data fl ngramLen text = 0) ∧
    (∀ p fl : ℚ, ngram_score [(['A'], p)] fl 1 ['A', 'A', 'A', 'A'] = 4 * p) := by
  refine ⟨?_, ?_, ?_⟩
  · intro data fl ngramLen text
    unfold ngram_score
    rw [sum_map_range_eq_finset_sum]
    exact Finset.sum_congr rfl (fun i _ => dictGet_eq_match data _ fl)
  · intro data fl ngramLen text h
    unfold ngram_score
    rw [show text.length + 1 - ngramLen = 0 by omega]
    rfl
  · intro p fl
    have h : dictGet [(['A'], p)] ['A'] fl = p := rfl
    have hup : upper ['A'] = ['A'] := rfl
    norm_num [ngram_score, sub, List.range_succ, hup, h]
    ring

/-- Witness for C4 (the short-text conjunct) at a concrete input. -/
theorem ngram_score_spec_witness :
    ngram_score [] (-7) 3 ['A', 'B'] = 0 :=
  ngram_score_spec.2.1 [] (-7) 3 ['A', 'B'] (by norm_num)

lemma dictInsert_snd {d : List (List Char × ℕ)} {k : List Char} {v : ℕ}
    {q : List Char × ℕ} (hq : q ∈ dictInsert d k v) : q.2 = v ∨ q ∈ d := by
  unfold dictInsert at hq
  by_cases hp : (d.lookup k).isSome
  · rw [if_pos hp] at hq
    obtain ⟨p, hpmem, hpeq⟩ := List.mem_map.mp hq
    by_cases hk : p.1 = k
    · rw [if_pos hk] at hpeq
      left
      rw [← hpeq]
    · rw [if_neg hk] at hpeq
      right
      rw [← hpeq]
      exact hpmem
  · rw [if_neg hp] at hq
    rcases List.mem_append.mp hq with h | h
    · exact Or.inr h
    · left
      rw [List.mem_singleton] at h
      rw [h]

lemma load_fold_pos :
    ∀ (l acc : List (List Char × ℕ)), (∀ q ∈ acc, 1 ≤ q.2) → (∀ p ∈ l, 1 ≤ p.2) →
      ∀ q ∈ l.foldl (fun d p => dictInsert d p.1 p.2) acc, 1 ≤ q.2 := by
  intro l
  induction l with
  | nil => intro acc hacc _ q hq; exact hacc q hq
  | cons p l ih =>
    intro acc hacc hl q hq
    refine ih (dictInsert acc p.1 p.2) ?_ (fun r hr => hl r (List.mem_cons_of_mem _ hr)) q hq
    intro r hr
    rcases dictInsert_snd hr with h | h
    · rw [h]
      exact hl p (List.mem_cons_self _ _)
    · exact hacc r h

/-- **C9.**  For a frequency resource whose counts are positive integers,
every tabulated log value `log10(count / N)` (with `N` the accumulated
total) is strictly greater than the floor `log10(0.01 / N)` the loader
computes.  `load_counts` is the count-accumulation stage of
`_NgramScorer._load_data`; the log transform it then applies is written out
here as `Real.logb 10`. -/
theorem table_values_above_floor :
    ∀ raw : List (List Char × ℕ), (∀ p ∈ raw, 1 ≤ p.2) → raw ≠ [] →
      ∀ q ∈ (load_counts raw).1,
        Real.logb 10 ((1 / 100 : ℝ) / ((load_counts raw).2 : ℝ)) <
          Real.logb 10 ((q.2 : ℝ) / ((load_counts raw).2 : ℝ)) := by
  intro raw hpos hne q hq
  have hq2 : 1 ≤ q.2 := load_fold_pos raw [] (by simp) hpos q hq
  have hN : 1 ≤ (load_counts raw).2 := by
    unfold load_counts
    cases raw with
    | nil => exact absurd rfl hne
    | cons p rest =>
      have h1 : 1 ≤ p.2 := hpos p (List.mem_cons_self _ _)
      simp only [List.map_cons, List.sum_cons]
      omega
  have hNR : (0 : ℝ) < ((load_counts raw).2 : ℝ) := by
    exact_mod_cast Nat.lt_of_lt_of_le Nat.zero_lt_one hN
  refine Real.logb_lt_logb (by norm_num) (div_pos (by norm_num) hNR) ?_
  refine (div_lt_div_iff_of_pos_right hNR).mpr ?_
  have : (1 : ℝ) ≤ (q.2 : ℝ) := by exact_mod_cast hq2
  linarith

/-- Witness for C9 at a concrete two-line resource. -/
theorem table_values_above_floor_witness :
    Real.logb 10 ((1 / 100 : ℝ) / ((load_counts [(['A'], 3), (['B'], 1)]).2 : ℝ)) <
      Real.logb 10 (((3 : ℕ) : ℝ) / ((load_counts [(['A'], 3), (['B'], 1)]).2 : ℝ)) :=
  table_values_above_floor [(['A'], 3), (['B'], 1)] (by decide) (by decide)
    (['A'], 3) (by decide)

/-! ## Initial-key acquisition — claim C6 -/

lemma acquireGo_stuck {K : Type} (dec : K → Option (List Char)) (gen : ℕ → K)
    {k : K} (hk : dec k = some []) :
    ∀ (fuel g : ℕ), acquireGo dec gen k g fuel = none := by
  intro fuel
  induction fuel with
  | zero => intro g; rfl
  | succ fuel ih =>
    intro g
    simp only [acquireGo, hk, if_pos]
    exact ih g

lemma acquireGo_of_failures {K : Type} (dec : K → Option (List Char)) (gen : ℕ → K) :
    ∀ (j fuel i : ℕ), (∀ m < j, dec (gen (i + m)) = none) →
      acquireGo dec gen (gen i) (i + 1) (j + fuel) =
        acquireGo dec gen (gen (i + j)) (i + j + 1) fuel := by
  intro j
  induction j with
  | zero => intro fuel i _; simp
  | succ j ih =>
    intro fuel i h
    have h0 : dec (gen i) = none := by simpa using h 0 (by omega)
    have hstep : acquireGo dec gen (gen i) (i + 1) (j + 1 + fuel) =
        acquireGo dec gen (gen (i + 1)) (i + 1 + 1) (j + fuel) := by
      rw [show j + 1 + fuel = (j + fuel) + 1 by omega]
      simp only [acquireGo, h0]
    rw [hstep, ih fuel (i + 1) (fun m hm => by
      have := h (m + 1) (by omega)
      rwa [show i + (m + 1) = i + 1 + m by omega] at this)]
    rw [show i + 1 + j = i + (j + 1) by omega]

lemma acquireGo_all_failures {K : Type} (dec : K → Option (List Char)) (gen : ℕ → K) :
    ∀ (fuel i : ℕ), (∀ m < fuel, dec (gen (i + m)) = none) →
      acquireGo dec gen (gen i) (i + 1) fuel = none := by
  intro fuel
  induction fuel with
  | zero => intro i _; rfl
  | succ fuel ih =>
    intro i h
    have h0 : dec (gen i) = none := by simpa using h 0 (by omega)
    simp only [acquireGo, h0]
    rw [show i + 1 + 1 = (i + 1) + 1 by omega]
    exact ih (i + 1) (fun m hm => by
      have := h (m + 1) (by omega)
      rwa [show i + (m + 1) = i + 1 + m by omega] at this)

/-- **C6, counterexample.**  The claim says the acquisition loop terminates
whenever the generator eventually produces a key whose decryption succeeds
with non-empty plaintext.  Under `hangDec`, the generator's key `1` decrypts
to the non-empty `"A"`, yet the loop never terminates: the first key `0`
decrypts *successfully* to the empty string, so the `while text == ""` loop
retries that same key forever (a key is only regenerated on an exception). -/
theorem acquire_nonempty_claim_cex :
    (∃ i ti, hangDec (natGen i) = some ti ∧ ti ≠ []) ∧
      ¬ ∃ fuel r, acquireKey hangDec natGen fuel = some r := by
  constructor
  · exact ⟨1, ['A'], rfl, by simp⟩
  · rintro ⟨fuel, r, hr⟩
    have hk : hangDec (natGen 0) = some [] := rfl
    have h := acquireGo_stuck hangDec natGen hk fuel 1
    rw [show acquireKey hangDec natGen fuel =
      acquireGo hangDec natGen (natGen 0) 1 fuel from rfl, h] at hr
    exact Option.noConfusion hr

/-- **C6, amended.**  Initial-key acquisition (shared verbatim by `anneal`
and `_single_restart`; both embeddings call `acquireKey`) regenerates a key
only when its decryption raises; it walks the generator stream to the
*first* key whose decryption succeeds, and terminates — with exactly that
key and its plaintext — iff that plaintext is non-empty.  If that first
succeeding key decrypts to the empty string, the key is retried unchanged
forever and acquisition diverges (conjunct 2), and an optimizer whose
acquisition diverges produces no result (conjuncts 3 and 4). -/
theorem acquire_first_success_spec {K : Type} :
    ∀ (dec : K → Option (List Char)) (gen : ℕ → K) (j : ℕ) (t : List Char),
      (∀ i < j, dec (gen i) = none) → dec (gen j) = some t →
      ((t ≠ [] → ∀ extra, acquireKey dec gen (j + 1 + extra) = some (t, gen j)) ∧
       (t = [] → ∀ fuel, acquireKey dec gen fuel = none)) ∧
      (∀ (ciphertext : List Char) (mutate : ℕ → K → K) (decrypt : List Char → K → Option (List Char))
         (score : List Char → ℚ) (expF : ℚ → ℚ) (rand : ℕ → ℚ) (temp rate limit : ℚ)
         (max_steps fuel : ℕ),
         acquireKey (decrypt ciphertext) gen fuel = none →
         anneal ciphertext gen mutate decrypt score expF rand temp rate limit max_steps fuel = none) ∧
      (∀ (dec' : K → Option (List Char)) (score : List Char → ℚ) (try_all : Bool)
         (mutate : K → List K) (fuel iterations : ℕ),
         acquireKey dec' gen fuel = none →
         single_restart dec' score try_all mutate gen fuel iterations = none) := by
  intro dec gen j t hfail hsucc
  refine ⟨⟨?_, ?_⟩, ?_, ?_⟩
  · intro htne extra
    have h := acquireGo_of_failures dec gen j (1 + extra) 0
      (fun m hm => by simpa using hfail m hm)
    rw [show j + 1 + extra = j + (1 + extra) by omega,
      show acquireKey dec gen (j + (1 + extra)) =
        acquireGo dec gen (gen 0) 1 (j + (1 + extra)) from rfl]
    rw [show (0 : ℕ) + 1 = 1 from rfl] at h
    rw [h]
    simp only [show (0 : ℕ) + j = j from by omega]
    rw [show (1 : ℕ) + extra = extra + 1 by omega]
    simp only [acquireGo, hsucc]
    rw [if_neg htne]
  · intro hte fuel
    rcases le_or_lt fuel j with hle | hlt
    · have h := acquireGo_all_failures dec gen fuel 0
        (fun m hm => by simpa using hfail m (by omega))
      rw [show acquireKey dec gen fuel = acquireGo dec gen (gen 0) 1 fuel from rfl]
      simpa using h
    · obtain ⟨rest, hrest⟩ : ∃ rest, fuel = j + rest := ⟨fuel - j, by omega⟩
      have h := acquireGo_of_failures dec gen j rest 0
        (fun m hm => by simpa using hfail m hm)
      rw [show acquireKey dec gen fuel = acquireGo dec gen (gen 0) 1 fuel from rfl, hrest]
      rw [show (0 : ℕ) + 1 = 1 from rfl] at h
      rw [h]
      subst hte
      exact acquireGo_stuck dec gen (by simpa using hsucc) rest _
  · intro ciphertext mutate decrypt score expF rand temp rate limit max_steps fuel hnone
    unfold anneal
    rw [hnone]
  · intro dec' score try_all mutate fuel iterations hnone
    unfold single_restart
    rw [hnone]

/-- Witness for the amended C6 at a concrete input. -/
theorem acquire_first_success_spec_witness :
    acquireKey skipDec natGen (1 + 1 + 0) = some (['B'], natGen 1) :=
  ((acquire_first_success_spec skipDec natGen 1 ['B']
      (by decide) rfl).1.1 (by simp) 0)

/-! ## Simulated annealing step semantics — claim C3 -/

/-- **C3, counterexample.**  The claim (and spec §4.3) says the loop
"terminates early once `temperature_i < stopThreshold`", i.e. at every step,
as formalized by `annealClaimGo`.  The code checks the temperature only at
the end of steps whose decryption *succeeded*: a `continue`d step skips the
check.  Concretely, with `temp = rate = 1` and `limit = 2`, every
`temperature_i = 1 < 2`, so the claim's loop stops after step 0 and returns
the initial `best = (0, "", 5)`; in the code, step 0's decryption fails and
is skipped, and step 1 then accepts key `1` with score `100` before
breaking, returning `(100, "X", 1)`. -/
theorem anneal_termination_claim_cex :
    annealGo cexDec cexScore cexExp cexMut cexRand 1 1 2 (0, [], 5) (0, [], 5) 0 2 ≠
      annealClaimGo cexDec cexScore cexExp cexMut cexRand 1 1 2 (0, [], 5) (0, [], 5) 0 2 := by
  have h1 : annealClaimGo cexDec cexScore cexExp cexMut cexRand 1 1 2
      ((0 : ℚ), ([] : List Char), (5 : ℕ)) (0, [], 5) 0 2 = (0, [], 5) := by
    norm_num [annealClaimGo, cexDec, cexMut, temperature]
  have h2 : annealGo cexDec cexScore cexExp cexMut cexRand 1 1 2
      ((0 : ℚ), ([] : List Char), (5 : ℕ)) (0, [], 5) 0 2 = (100, ['X'], 1) := by
    norm_num [annealGo, cexDec, cexMut, cexScore]
  rw [h1, h2]
  simp only [ne_eq, Prod.mk.injEq]
  norm_num

/-- **C3, amended.**  At every step `i` of the annealing loop: on a failed
decryption the state is unchanged and the loop continues (with no
temperature check); on a successful decryption with new score `sc`, the
temperature is `temp * rate ^ i`, the acceptance bound is
`expF (min ((sc - current.score) / temperature_i) 700)`, the mutated
candidate becomes `current` exactly when `sc > current.score` or the step's
uniform draw is below the bound, `best` is replaced exactly when the
accepted candidate's score also exceeds `best.score`, and the loop then
stops iff `temperature_i < stopThreshold`.  Formally: the source loop
`annealGo` coincides with `annealSpecGo`, the loop written from this
description via `temperature`, `acceptBound` and `accepts`. -/
theorem anneal_step_semantics {K : Type} :
    ∀ (dec : K → Option (List Char)) (score : List Char → ℚ) (expF : ℚ → ℚ)
      (mutate : ℕ → K → K) (rand : ℕ → ℚ) (temp rate limit : ℚ)
      (steps : ℕ) (cur best : ℚ × List Char × K) (i : ℕ),
      annealGo dec score expF mutate rand temp rate limit cur best i steps =
        annealSpecGo dec score expF mutate rand temp rate limit cur best i steps := by
  intro dec score expF mutate rand temp rate limit steps
  induction steps with
  | zero => intro cur best i; rfl
  | succ steps ih =>
    intro cur best i
    cases hdec : dec (mutate i cur.2.2) with
    | none =>
      simp only [annealGo, annealSpecGo, hdec]
      exact ih cur best (i + 1)
    | some t =>
      simp only [annealGo, annealSpecGo, hdec]
      by_cases hacc : score t > cur.1 ∨ rand i < expF (min ((score t - cur.1) / (temp * rate ^ i)) 700)
      · have hacc' : accepts expF (score t) cur.1 (temp * rate ^ i) (rand i) := by
          simpa [accepts, acceptBound] using hacc
        by_cases hlim : temp * rate ^ i < limit
        · simp [hacc, hacc', hlim, temperature]
        · simp [hacc, hacc', hlim, temperature, ih]
      · have hacc' : ¬ accepts expF (score t) cur.1 (temp * rate ^ i) (rand i) := by
          simpa [accepts, acceptBound] using hacc
        by_cases hlim : temp * rate ^ i < limit
        · simp [hacc, hacc', hlim, temperature]
        · simp [hacc, hacc', hlim, temperature, ih]

/-! ## Error recovery inside the search loops — claim C7 -/

lemma single_restart_some {K : Type} (dec : K → Option (List Char))
    (score : List Char → ℚ) (try_all : Bool) (mutate : K → List K) (gen : ℕ → K)
    (fuel iterations : ℕ) (h : acquireKey dec gen fuel ≠ none) :
    ∃ res, single_restart dec score try_all mutate gen fuel iterations = some res := by
  cases hacq : acquireKey dec gen fuel with
  | none => exact absurd hacq h
  | some p =>
    obtain ⟨t, k⟩ := p
    exact ⟨_, by unfold single_restart; rw [hacq]⟩

lemma hillClimbGo_some {K : Type} (dec : K → Option (List Char))
    (score : List Char → ℚ) (try_all : Bool) (mutate : K → List K)
    (gens : ℕ → ℕ → K) (fuel iterations : ℕ)
    (h : ∀ r, acquireKey dec (gens r) fuel ≠ none) :
    ∀ (rem : ℕ) (top : ℚ × List Char × K) (i : ℕ),
      ∃ p, hillClimbGo dec score try_all mutate gens fuel iterations top i rem = some p := by
  intro rem
  induction rem with
  | zero => intro top i; exact ⟨top, rfl⟩
  | succ rem ih =>
    intro top i
    obtain ⟨res, hres⟩ := single_restart_some dec score try_all mutate (gens i)
      fuel iterations (h i)
    obtain ⟨p, hp⟩ := ih (if res.1 > top.1 then res else top) (i + 1)
    exact ⟨p, by simp only [hillClimbGo, hres]; exact hp⟩

/-- **C7.**  A failed decryption inside either search loop skips the
candidate and continues with the state unchanged (conjuncts 1 and 2: a
failing annealing step only advances the step index, a failing neighbor is
dropped from the sweep); the exception never propagates: once the search
loop is reached — acquisition succeeded — `anneal` always returns a
`(text, key)` pair (conjunct 3), and so does `hill_climb` when each
restart's acquisition succeeds (conjunct 4); no "no solution found" result
exists. -/
theorem optimizer_error_recovery {K : Type} :
    (∀ (dec : K → Option (List Char)) (score : List Char → ℚ) (expF : ℚ → ℚ)
       (mutate : ℕ → K → K) (rand : ℕ → ℚ) (temp rate limit : ℚ)
       (cur best : ℚ × List Char × K) (i steps : ℕ),
       dec (mutate i cur.2.2) = none →
       annealGo dec score expF mutate rand temp rate limit cur best i (steps + 1) =
         annealGo dec score expF mutate rand temp rate limit cur best (i + 1) steps) ∧
    (∀ (dec : K → Option (List Char)) (score : List Char → ℚ) (try_all : Bool)
       (bi : ℚ × List Char × K) (key nk : K) (rest : List K),
       dec nk = none →
       sweepGo dec score try_all bi key (nk :: rest) =
         sweepGo dec score try_all bi key rest) ∧
    (∀ (ciphertext : List Char) (key_gen : ℕ → K) (mutate : ℕ → K → K)
       (decrypt : List Char → K → Option (List Char)) (score : List Char → ℚ)
       (expF : ℚ → ℚ) (rand : ℕ → ℚ) (temp rate limit : ℚ) (max_steps fuel : ℕ),
       acquireKey (decrypt ciphertext) key_gen fuel ≠ none →
       ∃ p, anneal ciphertext key_gen mutate decrypt score expF rand
         temp rate limit max_steps fuel = some p) ∧
    (∀ (ciphertext : List Char) (gens : ℕ → ℕ → K) (mutate : K → List K)
       (decrypt : List Char → K → Option (List Char)) (score : List Char → ℚ)
       (try_all : Bool) (restarts iterations fuel : ℕ),
       (∀ r, acquireKey (decrypt ciphertext) (gens r) fuel ≠ none) →
       ∃ p, hill_climb ciphertext gens mutate decrypt score try_all
         restarts iterations fuel = some p) := by
  refine ⟨?_, ?_, ?_, ?_⟩
  · intro dec score expF mutate rand temp rate limit cur best i steps hfail
    simp only [annealGo, hfail]
  · intro dec score try_all bi key nk rest hfail
    simp only [sweepGo, hfail]
  · intro ciphertext key_gen mutate decrypt score expF rand temp rate limit max_steps fuel h
    cases hacq : acquireKey (decrypt ciphertext) key_gen fuel with
    | none => exact absurd hacq h
    | some p =>
      obtain ⟨t, k⟩ := p
      exact ⟨_, by unfold anneal; rw [hacq]⟩
  · intro ciphertext gens mutate decrypt score try_all restarts iterations fuel h
    obtain ⟨top, htop⟩ := single_restart_some (decrypt ciphertext) score try_all mutate
      (gens 0) fuel iterations (h 0)
    obtain ⟨p, hp⟩ := hillClimbGo_some (decrypt ciphertext) score try_all mutate gens
      fuel iterations h (restarts - 1) top 1
    refine ⟨(p.2.1, p.2.2), ?_⟩
    unfold hill_climb
    rw [htop]
    simp only [hp, Option.map_some']

/-- Witness for C7 at a concrete input. -/
theorem optimizer_error_recovery_witness :
    ∃ p, anneal [] natGen (fun _ k => k) (fun _ _ => some ['A']) (fun _ => 0)
      (fun q => q) (fun _ => 0) 1 1 1 0 1 = some p :=
  optimizer_error_recovery.2.2.1 [] natGen (fun _ k => k) (fun _ _ => some ['A'])
    (fun _ => 0) (fun q => q) (fun _ => 0) 1 1 1 0 1 (by simp [acquireKey, acquireGo])

/-! ## Hill-climbing acceptance and termination — claim C8 -/

lemma sweepGo_mono {K : Type} (dec : K → Option (List Char))
    (score : List Char → ℚ) (try_all : Bool) :
    ∀ (ns : List K) (bi : ℚ × List Char × K) (key : K),
      bi.1 ≤ (sweepGo dec score try_all bi key ns).1.1 := by
  intro ns
  induction ns with
  | nil => intro bi key; exact le_refl _
  | cons nk rest ih =>
    intro bi key
    cases hdec : dec nk with
    | none =>
      simp only [sweepGo, hdec]
      exact ih bi key
    | some t =>
      simp only [sweepGo, hdec]
      by_cases hsc : score t > bi.1
      · rw [if_pos hsc]
        cases try_all with
        | true =>
          simp only
          exact le_trans (le_of_lt hsc) (ih (score t, t, nk) nk)
        | false => exact le_of_lt hsc
      · rw [if_neg hsc]
        exact ih bi key

lemma sweepGo_cases {K : Type} (dec : K → Option (List Char))
    (score : List Char → ℚ) (try_all : Bool) :
    ∀ (ns : List K) (bi : ℚ × List Char × K) (key : K),
      sweepGo dec score try_all bi key ns = (bi, key) ∨
        ∃ nk ∈ ns, ∃ t, dec nk = some t ∧
          (sweepGo dec score try_all bi key ns).1 = (score t, t, nk) ∧ bi.1 < score t := by
  intro ns
  induction ns with
  | nil => intro bi key; exact Or.inl rfl
  | cons nk rest ih =>
    intro bi key
    cases hdec : dec nk with
    | none =>
      simp only [sweepGo, hdec]
      rcases ih bi key with h | ⟨nk', hmem, t', h1, h2, h3⟩
      · exact Or.inl h
      · exact Or.inr ⟨nk', List.mem_cons_of_mem _ hmem, t', h1, h2, h3⟩
    | some t =>
      simp only [sweepGo, hdec]
      by_cases hsc : score t > bi.1
      · rw [if_pos hsc]
        cases try_all with
        | true =>
          simp only
          rcases ih (score t, t, nk) nk with h | ⟨nk', hmem, t', h1, h2, h3⟩
          · refine Or.inr ⟨nk, List.mem_cons_self _ _, t, hdec, ?_, hsc⟩
            simp [h]
          · exact Or.inr ⟨nk', List.mem_cons_of_mem _ hmem, t', h1, h2,
              lt_trans hsc h3⟩
        | false =>
          exact Or.inr ⟨nk, List.mem_cons_self _ _, t, hdec, rfl, hsc⟩
      · rw [if_neg hsc]
        rcases ih bi key with h | ⟨nk', hmem, t', h1, h2, h3⟩
        · exact Or.inl h
        · exact Or.inr ⟨nk', List.mem_cons_of_mem _ hmem, t', h1, h2, h3⟩

/-- **C8.**  Within one hill-climbing restart: the running best-of-sweep
score never decreases (conjunct 1); a sweep either leaves `(best_i, key)`
untouched or ends with an accepted neighbor that strictly improves on the
sweep's starting best (conjunct 2); a successfully decrypted neighbor whose
score does not exceed the current best-of-sweep is never accepted
(conjunct 3); an improving neighbor is accepted — ending the sweep if
`exhaustAll` is false (conjunct 4); and whenever a restart stops with
iterations to spare, its final `(best, key)` is a sweep fixpoint: a full
sweep from it accepts no neighbor, i.e. fuel exhaustion and an
improvement-free sweep are the only ways a restart ends (conjunct 5). -/
theorem hill_climb_acceptance {K : Type} :
    (∀ (dec : K → Option (List Char)) (score : List Char → ℚ) (try_all : Bool)
       (bi : ℚ × List Char × K) (key : K) (ns : List K),
       bi.1 ≤ (sweepGo dec score try_all bi key ns).1.1) ∧
    (∀ (dec : K → Option (List Char)) (score : List Char → ℚ) (try_all : Bool)
       (bi : ℚ × List Char × K) (key : K) (ns : List K),
       sweepGo dec score try_all bi key ns = (bi, key) ∨
         ∃ nk ∈ ns, ∃ t, dec nk = some t ∧
           (sweepGo dec score try_all bi key ns).1 = (score t, t, nk) ∧ bi.1 < score t) ∧
    (∀ (dec : K → Option (List Char)) (score : List Char → ℚ) (try_all : Bool)
       (bi : ℚ × List Char × K) (key nk : K) (rest : List K) (t : List Char),
       dec nk = some t → score t ≤ bi.1 →
       sweepGo dec score try_all bi key (nk :: rest) =
         sweepGo dec score try_all bi key rest) ∧
    (∀ (dec : K → Option (List Char)) (score : List Char → ℚ) (try_all : Bool)
       (bi : ℚ × List Char × K) (key nk : K) (rest : List K) (t : List Char),
       dec nk = some t → bi.1 < score t →
       sweepGo dec score try_all bi key (nk :: rest) =
         if try_all then sweepGo dec score try_all (score t, t, nk) nk rest
         else ((score t, t, nk), nk)) ∧
    (∀ (dec : K → Option (List Char)) (score : List Char → ℚ) (try_all : Bool)
       (mutate : K → List K) (best : ℚ × List Char × K) (key : K) (fuel : ℕ),
       (climbGo dec score try_all mutate best key fuel).2.2 ≠ 0 →
       sweepGo dec score try_all (climbGo dec score try_all mutate best key fuel).1
           ((climbGo dec score try_all mutate best key fuel).2.1)
           (mutate ((climbGo dec score try_all mutate best key fuel).2.1)) =
         ((climbGo dec score try_all mutate best key fuel).1,
          (climbGo dec score try_all mutate best key fuel).2.1)) := by
  refine ⟨fun dec score try_all bi key ns => sweepGo_mono dec score try_all ns bi key,
    fun dec score try_all bi key ns => sweepGo_cases dec score try_all ns bi key, ?_, ?_, ?_⟩
  · intro dec score try_all bi key nk rest t hdec hle
    simp only [sweepGo, hdec]
    rw [if_neg (not_lt.mpr hle)]
  · intro dec score try_all bi key nk rest t hdec hlt
    simp only [sweepGo, hdec]
    rw [if_pos hlt]
  · intro dec score try_all mutate best key fuel
    induction fuel generalizing best key with
    | zero => intro h; exact absurd rfl h
    | succ fuel ih =>
      intro h
      by_cases himp : (sweepGo dec score try_all best key (mutate key)).1.1 > best.1
      · have hstep : climbGo dec score try_all mutate best key (fuel + 1) =
            climbGo dec score try_all mutate
              (sweepGo dec score try_all best key (mutate key)).1
              (sweepGo dec score try_all best key (mutate key)).2 fuel := by
          simp only [climbGo]
          rw [if_pos himp]
        rw [hstep] at h ⊢
        exact ih _ _ h
      · have hstep : climbGo dec score try_all mutate best key (fuel + 1) =
            (best, key, fuel + 1) := by
          simp only [climbGo]
          rw [if_neg himp]
        rw [hstep]
        simp only
        rcases sweepGo_cases dec score try_all (mutate key) best key with hfix | ⟨nk, _, t, _, h2, h3⟩
        · exact hfix
        · exfalso
          apply himp
          rw [h2]
          exact h3

/-- Witness for C8 (the never-accept-a-non-improving-neighbor conjunct) at a
concrete input. -/
theorem hill_climb_acceptance_witness :
    sweepGo (fun _ => some ['A']) (fun _ => 0) true ((0 : ℚ), ([] : List Char), (1 : ℕ)) 1 [2] =
      sweepGo (fun _ => some ['A']) (fun _ => 0) true ((0 : ℚ), ([] : List Char), (1 : ℕ)) 1 [] :=
  hill_climb_acceptance.2.2.1 (fun _ => some ['A']) (fun _ => 0) true
    ((0 : ℚ), ([] : List Char), (1 : ℕ)) 1 2 [] ['A'] rfl (le_refl 0)

/-! ## The returned pair decrypts consistently — claim C10 -/

lemma acquireGo_consistent {K : Type} (dec : K → Option (List Char)) (gen : ℕ → K) :
    ∀ (fuel : ℕ) (k : K) (g : ℕ) (t : List Char) (k' : K),
      acquireGo dec gen k g fuel = some (t, k') → dec k' = some t := by
  intro fuel
  induction fuel with
  | zero => intro k g t k' h; exact Option.noConfusion h
  | succ fuel ih =>
    intro k g t k' h
    cases hdec : dec k with
    | none =>
      simp only [acquireGo, hdec] at h
      exact ih _ _ _ _ h
    | some t0 =>
      simp only [acquireGo, hdec] at h
      by_cases ht0 : t0 = []
      · rw [if_pos ht0] at h
        exact ih _ _ _ _ h
      · rw [if_neg ht0] at h
        obtain ⟨ht, hk⟩ := Prod.mk.injEq .. ▸ Option.some.inj h
        rw [← hk, hdec, ht]

lemma annealGo_consistent {K : Type} (dec : K → Option (List Char))
    (score : List Char → ℚ) (expF : ℚ → ℚ) (mutate : ℕ → K → K) (rand : ℕ → ℚ)
    (temp rate limit : ℚ) :
    ∀ (steps : ℕ) (cur best : ℚ × List Char × K) (i : ℕ),
      dec cur.2.2 = some cur.2.1 → dec best.2.2 = some best.2.1 →
      dec (annealGo dec score expF mutate rand temp rate limit cur best i steps).2.2 =
        some (annealGo dec score expF mutate rand temp rate limit cur best i steps).2.1 := by
  intro steps
  induction steps with
  | zero => intro cur best i _ hbest; exact hbest
  | succ steps ih =>
    intro cur best i hcur hbest
    cases hdec : dec (mutate i cur.2.2) with
    | none =>
      simp only [annealGo, hdec]
      exact ih cur best (i + 1) hcur hbest
    | some t =>
      simp only [annealGo, hdec]
      by_cases hacc : score t > cur.1 ∨ rand i < expF (min ((score t - cur.1) / (temp * rate ^ i)) 700)
      · by_cases hb : score t > best.1
        · by_cases hlim : temp * rate ^ i < limit
          · simpa [hacc, hb, hlim] using hdec
          · simp only [if_pos hacc, if_pos hb, if_neg hlim]
            exact ih _ _ (i + 1) hdec hdec
        · by_cases hlim : temp * rate ^ i < limit
          · simpa [hacc, hb, hlim] using hbest
          · simp only [if_pos hacc, if_neg hb, if_neg hlim]
            exact ih _ _ (i + 1) hdec hbest
      · by_cases hlim : temp * rate ^ i < limit
        · simpa [hacc, hlim] using hbest
        · simp only [if_neg hacc, if_neg hlim]
          exact ih _ _ (i + 1) hcur hbest

lemma sweepGo_consistent {K : Type} (dec : K → Option (List Char))
    (score : List Char → ℚ) (try_all : Bool) :
    ∀ (ns : List K) (bi : ℚ × List Char × K) (key : K),
      dec bi.2.2 = some bi.2.1 →
      dec (sweepGo dec score try_all bi key ns).1.2.2 =
        some (sweepGo dec score try_all bi key ns).1.2.1 := by
  intro ns
  induction ns with
  | nil => intro bi key h; exact h
  | cons nk rest ih =>
    intro bi key h
    cases hdec : dec nk with
    | none =>
      simp only [sweepGo, hdec]
      exact ih bi key h
    | some t =>
      simp only [sweepGo, hdec]
      by_cases hsc : score t > bi.1
      · rw [if_pos hsc]
        cases try_all with
        | true => exact ih (score t, t, nk) nk hdec
        | false => exact hdec
      · rw [if_neg hsc]
        exact ih bi key h

lemma climbGo_consistent {K : Type} (dec : K → Option (List Char))
    (score : List Char → ℚ) (try_all : Bool) (mutate : K → List K) :
    ∀ (fuel : ℕ) (best : ℚ × List Char × K) (key : K),
      dec best.2.2 = some best.2.1 →
      dec (climbGo dec score try_all mutate best key fuel).1.2.2 =
        some (climbGo dec score try_all mutate best key fuel).1.2.1 := by
  intro fuel
  induction fuel with
  | zero => intro best key h; exact h
  | succ fuel ih =>
    intro best key h
    simp only [climbGo]
    by_cases himp : (sweepGo dec score try_all best key (mutate key)).1.1 > best.1
    · rw [if_pos himp]
      exact ih _ _ (sweepGo_consistent dec score try_all (mutate key) best key h)
    · rw [if_neg himp]
      exact h

lemma single_restart_consistent {K : Type} (dec : K → Option (List Char))
    (score : List Char → ℚ) (try_all : Bool) (mutate : K → List K) (gen : ℕ → K)
    (fuel iterations : ℕ) (res : ℚ × List Char × K)
    (h : single_restart dec score try_all mutate gen fuel iterations = some res) :
    dec res.2.2 = some res.2.1 := by
  unfold single_restart at h
  cases hacq : acquireKey dec gen fuel with
  | none => rw [hacq] at h; exact Option.noConfusion h
  | some p =>
    obtain ⟨t, k⟩ := p
    rw [hacq] at h
    have hk : dec k = some t := acquireGo_consistent dec gen fuel _ _ _ _ hacq
    have hres := Option.some.inj h
    rw [← hres]
    exact climbGo_consistent dec score try_all mutate iterations (score t, t, k) k hk

lemma hillClimbGo_consistent {K : Type} (dec : K → Option (List Char))
    (score : List Char → ℚ) (try_all : Bool) (mutate : K → List K)
    (gens : ℕ → ℕ → K) (fuel iterations : ℕ) :
    ∀ (rem : ℕ) (top : ℚ × List Char × K) (i : ℕ) (p : ℚ × List Char × K),
      dec top.2.2 = some top.2.1 →
      hillClimbGo dec score try_all mutate gens fuel iterations top i rem = some p →
      dec p.2.2 = some p.2.1 := by
  intro rem
  induction rem with
  | zero =>
    intro top i p htop h
    rw [← Option.some.inj h]
    exact htop
  | succ rem ih =>
    intro top i p htop h
    simp only [hillClimbGo] at h
    cases hres : single_restart dec score try_all mutate (gens i) fuel iterations with
    | none => rw [hres] at h; exact Option.noConfusion h
    | some res =>
      rw [hres] at h
      refine ih _ (i + 1) p ?_ h
      by_cases hcmp : res.1 > top.1
      · rw [if_pos hcmp]
        exact single_restart_consistent dec score try_all mutate (gens i)
          fuel iterations res hres
      · rw [if_neg hcmp]
        exact htop

/-- **C10.**  Whenever either optimizer returns a pair `(text, key)`, that
pair is internally consistent: `text` is exactly the decryption of the input
ciphertext under `key` — an invariant maintained by the initial acquisition
and by every update of `current` and `best` in both search loops. -/
theorem optimizer_returns_decryption {K : Type} :
    (∀ (ciphertext : List Char) (key_gen : ℕ → K) (mutate : ℕ → K → K)
       (decrypt : List Char → K → Option (List Char)) (score : List Char → ℚ)
       (expF : ℚ → ℚ) (rand : ℕ → ℚ) (temp rate limit : ℚ) (max_steps fuel : ℕ)
       (t : List Char) (k : K),
       anneal ciphertext key_gen mutate decrypt score expF rand temp rate limit
         max_steps fuel = some (t, k) →
       decrypt ciphertext k = some t) ∧
    (∀ (ciphertext : List Char) (gens : ℕ → ℕ → K) (mutate : K → List K)
       (decrypt : List Char → K → Option (List Char)) (score : List Char → ℚ)
       (try_all : Bool) (restarts iterations fuel : ℕ) (t : List Char) (k : K),
       hill_climb ciphertext gens mutate decrypt score try_all restarts iterations
         fuel = some (t, k) →
       decrypt ciphertext k = some t) := by
  constructor
  · intro ciphertext key_gen mutate decrypt score expF rand temp rate limit
      max_steps fuel t k h
    unfold anneal at h
    cases hacq : acquireKey (decrypt ciphertext) key_gen fuel with
    | none => simp only [hacq] at h; exact Option.noConfusion h
    | some p =>
      obtain ⟨t0, k0⟩ := p
      simp only [hacq] at h
      have hk0 : decrypt ciphertext k0 = some t0 :=
        acquireGo_consistent (decrypt ciphertext) key_gen fuel _ _ _ _ hacq
      have hcons := annealGo_consistent (decrypt ciphertext) score expF mutate rand
        temp rate limit max_steps (score t0, t0, k0) (score t0, t0, k0) 0 hk0 hk0
      obtain ⟨ht, hk⟩ := Prod.mk.injEq .. ▸ Option.some.inj h
      rw [← hk, ← ht]
      exact hcons
  · intro ciphertext gens mutate decrypt score try_all restarts iterations fuel t k h
    unfold hill_climb at h
    cases htop : single_restart (decrypt ciphertext) score try_all mutate (gens 0)
        fuel iterations with
    | none => simp only [htop] at h; exact Option.noConfusion h
    | some top =>
      simp only [htop] at h
      cases hgo : hillClimbGo (decrypt ciphertext) score try_all mutate gens fuel
          iterations top 1 (restarts - 1) with
      | none => simp only [hgo, Option.map_none'] at h; exact Option.noConfusion h
      | some p =>
        simp only [hgo, Option.map_some'] at h
        have hp := hillClimbGo_consistent (decrypt ciphertext) score try_all mutate
          gens fuel iterations (restarts - 1) top 1 p
          (single_restart_consistent (decrypt ciphertext) score try_all mutate
            (gens 0) fuel iterations top htop) hgo
        obtain ⟨ht, hk⟩ := Prod.mk.injEq .. ▸ Option.some.inj h
        rw [← hk, ← ht]
        exact hp

/-- Witness for C10 at a concrete annealing run. -/
theorem optimizer_returns_decryption_witness :
    (fun (_ : List Char) (_ : ℕ) => some ['A']) ([] : List Char) 0 = some ['A'] :=
  optimizer_returns_decryption.1 [] natGen (fun _ k => k)
    (fun _ _ => some ['A']) (fun _ => 0) (fun q => q) (fun _ => 0) 1 1 1 0 1 ['A'] 0 rfl

end Cryptolab
